import Mathlib

/-!
Verification of the fragment-reconciliation, module-tree assembly and
symbol-path resolution logic of the `protoc_wrapper` program
(src/proto/prost/private/protoc_wrapper.rs).

The Rust code is shallowly embedded: strings are Lean `String`s (lists of
characters), the `BTreeMap`/`BTreeSet` containers are modelled as sorted
association lists (iteration in ascending key order, as in Rust), the
filesystem is a partial map `String → Option String`, and panics /
recoverable errors are `Option` / `Except`.
-/

namespace PW

/-- `str::split_once(c)`: split at the first occurrence of `c`. -/
def splitOnce : List Char → Char → Option (List Char × List Char)
  | [], _ => none
  | a :: as, c =>
    if a = c then some ([], as)
    else
      match splitOnce as c with
      | none => none
      | some (x, y) => some (a :: x, y)

/-- `str::rsplit_once(c)`: split at the last occurrence of `c`. -/
def rsplitOnce (l : List Char) (c : Char) : Option (List Char × List Char) :=
  match splitOnce l.reverse c with
  | none => none
  | some (x, y) => some (y.reverse, x.reverse)

/-- String wrapper for `splitOnce`. -/
def splitOnceS (s : String) (c : Char) : Option (String × String) :=
  match splitOnce s.data c with
  | none => none
  | some (x, y) => some (⟨x⟩, ⟨y⟩)

/-- String wrapper for `rsplitOnce`. -/
def rsplitOnceS (s : String) (c : Char) : Option (String × String) :=
  match rsplitOnce s.data c with
  | none => none
  | some (x, y) => some (⟨x⟩, ⟨y⟩)

/-- `str::split('.')` (always at least one piece, empty pieces kept). -/
def splitDots : List Char → List (List Char)
  | [] => [[]]
  | c :: rest =>
    match splitDots rest with
    | [] => [[]]
    | h :: t => if c = '.' then [] :: h :: t else (c :: h) :: t

/-- Inverse of `splitDots`: `Vec::join(".")`. -/
def joinDots : List (List Char) → List Char
  | [] => []
  | [x] => x
  | x :: y :: t => x ++ '.' :: joinDots (y :: t)

/-- `str::replace('.', "::")`. -/
def replDots : List Char → List Char
  | [] => []
  | c :: rest => (if c = '.' then [':', ':'] else [c]) ++ replDots rest

/-- `str::trim_matches(':')`: drop leading and trailing colons. -/
def trimColons (l : List Char) : List Char :=
  ((l.dropWhile (· = ':')).reverse.dropWhile (· = ':')).reverse

/-- Boolean substring test (used to state "the message includes ..."). -/
def isSubstr (sub : List Char) : List Char → Bool
  | [] => sub.isPrefixOf []
  | c :: t => sub.isPrefixOf (c :: t) || isSubstr sub t

/-- `str::strip_suffix`: remove `suf` from the end of `s` if present. -/
def dropSuffix? (s suf : String) : Option String :=
  if suf.data.isSuffixOf s.data then some ⟨s.data.take (s.data.length - suf.data.length)⟩
  else none

/-- `str::ends_with` on whole strings. -/
def endsWithS (s suf : String) : Bool := suf.data.isSuffixOf s.data

/-- `Path::file_stem` for flat (directory-free) file names: the portion of
the name before the final `.`, or the whole name when that portion is
empty or there is no `.`. -/
def fileStem (s : String) : String :=
  match rsplitOnce s.data '.' with
  | none => s
  | some (pre, _) => if pre = [] then s else ⟨pre⟩

/-- Lexicographic order on character lists: the order `Ord` gives Rust
strings (UTF-8 byte order agrees with codepoint order). -/
def ltCL : List Char → List Char → Bool
  | [], [] => false
  | [], _ :: _ => true
  | _ :: _, [] => false
  | a :: as, b :: bs => if a < b then true else if b < a then false else ltCL as bs

/-- Rust's `String` ordering. -/
def ltS (a b : String) : Bool := ltCL a.data b.data

/-- `BTreeSet<String>` insertion into an ascending sorted list. -/
def insertStr (x : String) : List String → List String
  | [] => [x]
  | y :: t => if ltS x y then x :: y :: t else if x = y then y :: t else y :: insertStr x t

/-- The canonical (ascending, deduplicated) element list of a `BTreeSet`
built by inserting the given elements. -/
def sortedDedup (l : List String) : List String := l.foldl (fun acc x => insertStr x acc) []

theorem ltCL_irrefl : ∀ l : List Char, ltCL l l = false
  | [] => rfl
  | a :: as => by simp [ltCL, ltCL_irrefl as]

theorem ltCL_asymm : ∀ {a b : List Char}, ltCL a b = true → ltCL b a = false
  | [], [], h => by simp [ltCL] at h
  | [], _ :: _, _ => rfl
  | _ :: _, [], h => by simp [ltCL] at h
  | a :: as, b :: bs, h => by
    by_cases hab : a < b
    · have hba : ¬ b < a := lt_asymm hab
      simp [ltCL, hba, hab]
    · by_cases hba : b < a
      · simp [ltCL, hab, hba] at h
      · simp [ltCL, hab, hba] at h ⊢
        exact ltCL_asymm h

theorem ltCL_total : ∀ {a b : List Char}, ltCL a b = false → ltCL b a = false → a = b
  | [], [], _, _ => rfl
  | [], _ :: _, h, _ => by simp [ltCL] at h
  | _ :: _, [], _, h => by simp [ltCL] at h
  | a :: as, b :: bs, h₁, h₂ => by
    by_cases hab : a < b
    · simp [ltCL, hab] at h₁
    · by_cases hba : b < a
      · simp [ltCL, hba, lt_asymm hba] at h₂
      · have hab' : a = b := le_antisymm (not_lt.mp hba) (not_lt.mp hab)
        simp [ltCL, hab, hba] at h₁ h₂
        subst hab'
        exact congrArg (a :: ·) (ltCL_total h₁ h₂)

theorem ltCL_trans : ∀ {a b c : List Char},
    ltCL a b = true → ltCL b c = true → ltCL a c = true
  | [], _, _ :: _, _, _ => rfl
  | [], _ :: _, [], _, h => by simp [ltCL] at h
  | [], [], _, h, _ => by simp [ltCL] at h
  | _ :: _, [], _, h, _ => by simp [ltCL] at h
  | _ :: _, _ :: _, [], _, h => by simp [ltCL] at h
  | a :: as, b :: bs, c :: cs, h₁, h₂ => by
    by_cases hab : a < b <;> by_cases hbc : b < c
    · simp [ltCL, lt_trans hab hbc]
    · have hcb : c ≤ b := not_lt.mp hbc
      by_cases hbc' : c < b
      · simp [ltCL, hbc', lt_asymm hbc'] at h₂
      · have : b = c := le_antisymm (not_lt.mp hbc') hcb
        subst this
        simp [ltCL, hab]
    · have : a = b := by
        by_cases hba : b < a
        · simp [ltCL, hab, hba] at h₁
        · exact le_antisymm (not_lt.mp hba) (not_lt.mp hab)
      subst this
      simp [ltCL, hbc]
    · have hab' : a = b := by
        by_cases hba : b < a
        · simp [ltCL, hab, hba] at h₁
        · exact le_antisymm (not_lt.mp hba) (not_lt.mp hab)
      have hbc'' : b = c := by
        by_cases hcb : c < b
        · simp [ltCL, hbc, hcb] at h₂
        · exact le_antisymm (not_lt.mp hcb) (not_lt.mp hbc)
      subst hab'; subst hbc''
      simp [ltCL, hab] at h₁ h₂ ⊢
      exact ltCL_trans h₁ h₂

theorem ltS_irrefl (s : String) : ltS s s = false := ltCL_irrefl s.data

theorem string_data_inj : ∀ {a b : String}, a.data = b.data → a = b
  | ⟨_⟩, ⟨_⟩, h => by simp only at h; exact congrArg String.mk h

theorem ltS_total {a b : String} (h₁ : ltS a b = false) (h₂ : ltS b a = false) : a = b :=
  string_data_inj (ltCL_total h₁ h₂)

theorem ltS_asymm {a b : String} (h : ltS a b = true) : ltS b a = false := ltCL_asymm h

theorem ltS_trans {a b c : String} (h₁ : ltS a b = true) (h₂ : ltS b c = true) :
    ltS a c = true := ltCL_trans h₁ h₂

end PW

namespace PW

-- sanity checks (compile-time only)
example : splitOnceS ("a b c") ' ' = some ("a", "b c") := by decide
example : rsplitOnceS ("a.b.c") '.' = some ("a.b", "c") := by decide
example : fileStem ("a.b.rs") = "a.b" := by decide
example : fileStem (".rs") = ".rs" := by decide
example : fileStem (".tonic.rs") = ".tonic" := by decide
example : dropSuffix? (".tonic") (".tonic") = some "" := by decide
example : splitDots ("a.b").data = [['a'], ['b']] := by decide
example : trimColons ("::a:b::").data = "a:b".data := by decide
example : sortedDedup ["b", "a", "b"] = ["a", "b"] := by decide
example : ltS ("a.b.rs") ("a.rs") = true := by decide

/-! ## Module tree (`generate_lib_rs` / `write_module`) -/

/-- Rust module definition (struct `Module` in the source). -/
structure Module where
  name : String
  contents : String
  /-- `BTreeSet<String>`: ascending sorted list. -/
  submodules : List String
deriving DecidableEq

/-- `BTreeMap<String, Module>`: ascending sorted association list. -/
abbrev ModuleInfo := List (String × Module)

/-- `BTreeMap::get`. -/
def lookupM : ModuleInfo → String → Option Module
  | [], _ => none
  | (k', m) :: rest, k => if k = k' then some m else lookupM rest k

/-- `BTreeMap::insert` (replaces an existing entry). -/
def insertSorted (k : String) (v : Module) : ModuleInfo → ModuleInfo
  | [] => [(k, v)]
  | (k', m) :: rest =>
    if ltS k k' then (k, v) :: (k', m) :: rest
    else if k = k' then (k, v) :: rest
    else (k', m) :: insertSorted k v rest

/-- `BTreeSet<String>::insert`. -/
def insertSub (x : String) : List String → List String
  | [] => [x]
  | y :: t => if ltS x y then x :: y :: t else if x = y then y :: t else y :: insertSub x t

/-- The source's `module_info.entry(key).and_modify(add child).or_insert(new
module named parentName with empty contents and that one child)`. -/
def entryAddChild : ModuleInfo → String → String → String → ModuleInfo
  | [], key, pn, cn => [(key, ⟨pn, "", [cn]⟩)]
  | (k, m) :: rest, key, pn, cn =>
    if ltS key k then (key, ⟨pn, "", [cn]⟩) :: (k, m) :: rest
    else if key = k then (k, { m with submodules := insertSub cn m.submodules }) :: rest
    else (k, m) :: entryAddChild rest key pn cn

/-- `str::to_lowercase`, character by character. -/
def toLowerS (s : String) : String := ⟨s.data.map Char.toLower⟩

/-- The derived module name of one generated file: file stem, `.tonic`
suffix stripped in tonic mode (`none` models the `expect` panic when the
suffix is absent), lowercased. -/
def modNameOf (isTonic : Bool) (path : String) : Option String :=
  let stem := fileStem path
  if isTonic then (dropSuffix? stem (".tonic")).map toLowerS
  else some (toLowerS stem)

/-- The prefix loop of `generate_lib_rs`: for each `parent_module_index`
`i` with `i + 1 < parts.len()`, register `parts[i+1]` as a submodule of the
node at `parts[0..=i].join(".")`, creating it with empty contents if absent. -/
def addLinks (parts : List (List Char)) (mi : ModuleInfo) : ModuleInfo :=
  (List.range (parts.length - 1)).foldl
    (fun mi i =>
      entryAddChild mi ⟨joinDots (parts.take (i + 1))⟩ ⟨parts.getD i []⟩ ⟨parts.getD (i + 1) []⟩)
    mi

/-- The body of the `for path in prost_outputs` loop of `generate_lib_rs`
for one file, given its path and contents. -/
def processFile (isTonic : Bool) (mi : ModuleInfo) (path contents : String) :
    Option ModuleInfo :=
  match modNameOf isTonic path with
  | none => none
  | some moduleName =>
    if moduleName = "" then some mi
    else
      let name :=
        if moduleName.data.contains '.' then
          match rsplitOnce moduleName.data '.' with
          | some (_, y) => (⟨y⟩ : String)
          | none => moduleName
        else moduleName
      let mi1 := insertSorted moduleName ⟨name, contents, []⟩ mi
      some (addLinks (splitDots moduleName.data) mi1)

/-- The map-building phase of `generate_lib_rs`, iterating the discovered
files in ascending path order (they come from a `BTreeSet<PathBuf>`). -/
def buildModuleInfo (isTonic : Bool) (files : List (String × String)) : Option ModuleInfo :=
  files.foldlM (fun mi pc => processFile isTonic mi pc.1 pc.2) []

/-- Serialize a list of module names in order with the writer `w`,
concatenating their texts into `acc` (the sequential `content.write_str`
calls of the source); the first failure aborts. -/
def writeSeq (w : String → Nat → Option String) (names : List String) (depth : Nat) :
    Option String :=
  names.foldlM (fun acc n => (w n depth).map (fun s => acc ++ s)) ("")

/-- `write_module`: serialize the module at `moduleName` (the empty name is
the root, which iterates every key of the map).  `fuel` bounds the
recursion depth; `none` models a panic (missing key) or divergence. -/
def writeModule (mi : ModuleInfo) : Nat → String → Nat → Option String
  | 0, _, _ => none
  | fuel + 1, moduleName, depth =>
    if moduleName = "" then
      writeSeq (writeModule mi fuel) (mi.map Prod.fst) (depth + 1)
    else
      match lookupM mi moduleName with
      | none => none
      | some m =>
        let indent : String := ⟨List.replicate (2 * depth) ' '⟩
        let isRust := m.name ≠ "_"
        match writeSeq (writeModule mi fuel)
            (m.submodules.map (fun sub => moduleName ++ "." ++ sub)) (depth + 1) with
        | none => none
        | some mids =>
          some ((if isRust then indent ++ "pub mod " ++ m.name ++ " \x7b\n" else "")
            ++ m.contents ++ mids
            ++ (if isRust then indent ++ "\x7d\n" else ""))

/-- `generate_lib_rs`: build the module map from the (sorted) file set and
serialize it behind the fixed provenance header. -/
def generateLibRs (files : List (String × String)) (isTonic : Bool) : Option String :=
  match buildModuleInfo isTonic files with
  | none => none
  | some mi =>
    match writeModule mi (mi.length + 2) ("") 0 with
    | none => none
    | some body => some ("// @generated\n\n" ++ body)

/-! ## Symbol-path resolution (`compute_proto_package_info`) -/

/-- `str::trim` (for the ASCII whitespace appearing in diagnostic output). -/
def trimS (s : String) : String :=
  ⟨((s.data.dropWhile Char.isWhitespace).reverse.dropWhile Char.isWhitespace).reverse⟩

/-- Split a blob on newlines, `str::lines` style (no trailing empty line). -/
def splitNL : List Char → List (List Char)
  | [] => [[]]
  | c :: rest =>
    match splitNL rest with
    | [] => [[]]
    | h :: t => if c = '\n' then [] :: h :: t else (c :: h) :: t

/-- `str::lines` (carriage returns are left to `trimS`, which removes them
wherever they could matter here). -/
def rustLines (s : String) : List String :=
  let ps := splitNL s.data
  (if ps.getLast? = some [] then ps.dropLast else ps).map (fun l => ⟨l⟩)

/-- The extern path computed for one absolute symbol name:
`format!(".{}={}::{}", absolute, crate_name, symbol.trim_matches(':'))`
where `symbol = format!("{}::{}", package.replace('.', "::"), symbol_name)`
and `(package, symbol_name)` comes from `absolute.rsplit_once('.')`
(package empty when there is no dot). -/
def externOf (crateName absolute : String) : String :=
  let pq : List Char × List Char :=
    match rsplitOnce absolute.data '.' with
    | some (p, s) => (p, s)
    | none => ([], absolute.data)
  let symbol : List Char := replDots pq.1 ++ ':' :: ':' :: pq.2
  ("." : String) ++ absolute ++ "=" ++ crateName ++ "::" ++ (⟨trimColons symbol⟩ : String)

/-- One line of the free-field-numbers listing: skip blank lines, split at
the first space (`expect` panic when impossible, modelled as the fixed
panic message), build the extern path and insert it, failing on a
duplicate. -/
def procLine (crateName : String) (acc : List String) (line : String) :
    Except String (List String) :=
  let text := trimS line
  if text = "" then .ok acc
  else
    match splitOnceS text ' ' with
    | none => .error ("Failed to split free field number line")
    | some (absolute, _) =>
      let e := externOf crateName absolute
      if e ∈ acc then .error ("Duplicate extern: " ++ e)
      else .ok (insertStr e acc)

/-- `compute_proto_package_info`: fold over the stdout blobs (the values of
the `BTreeMap`, in ascending key order) and their lines. -/
def computeProtoPackageInfo (stdouts : List String) (crateName : String) :
    Except String (List String) :=
  stdouts.foldlM (fun acc out => (rustLines out).foldlM (procLine crateName) acc) []

/-! ## The tonic rename/merge pass of `main` -/

/-- One iteration of the `for tonic_file in tonic_files` loop: for a file
not named `*.tonic.rs`, rename it to `<stem>.tonic.rs` unless that file
already exists; for a `*.tonic.rs` file whose sibling `<stem>.rs` exists,
overwrite it with `sibling content ++ "\n" ++ own content` and remove the
sibling.  The state is the filesystem (name → contents); `none` models a
panic of one of the `expect`s. -/
def tonicStep (fs : String → Option String) (n : String) :
    Option (String → Option String) :=
  if endsWithS n (".tonic.rs") = false then
    match dropSuffix? n (".rs") with
    | none => none
    | some stem =>
      let real := stem ++ ".tonic.rs"
      if (fs real).isSome then some fs
      else
        match fs n with
        | none => none
        | some contents =>
          some (fun k => if k = real then some contents else if k = n then none else fs k)
  else
    match dropSuffix? n (".tonic.rs") with
    | none => none
    | some stem =>
      let rs := stem ++ ".rs"
      match fs rs with
      | none => some fs
      | some rsContent =>
        match fs n with
        | none => none
        | some tonicContent =>
          some (fun k =>
            if k = n then some (rsContent ++ "\n" ++ tonicContent)
            else if k = rs then none else fs k)

/-- The whole rename/merge pass, visiting the originally discovered file
names in ascending order (they come from a `BTreeSet<PathBuf>`). -/
def tonicPass (fs : String → Option String) (names : List String) :
    Option (String → Option String) :=
  names.foldlM tonicStep fs

end PW

namespace PW

/-! ## Claim C1 -/

/-- Claim C1 states that the writer serializes each module node exactly
once, the root recursing only into its immediate top-level children.  The
code refutes it: the root case of `write_module` iterates every key of
`module_info`, so for the single canonical fragment with package `a.b`
(file `a.b.rs`, contents `B`) the fragment's content is emitted twice —
once nested inside `pub mod a` and once more as a top-level `pub mod b`. -/
theorem c1_root_iterates_every_key_duplicating_content :
    generateLibRs [("a.b.rs", "B")] false =
      some ("// @generated\n\n  pub mod a \x7b\n    pub mod b \x7b\nB    \x7d\n  \x7d\n  pub mod b \x7b\nB  \x7d\n") ∧
    (generateLibRs [("a.b.rs", "B")] false).map (fun s => s.data.count 'B') = some 2 := by
  decide

/-! ## Claim C5 -/

/-- Claim C5 states that with fragments for both a package `a` and a deeper
package `a.b`, `b` stays registered as a submodule of node `a` regardless
of processing order.  The code refutes it: files are processed in ascending
path order (`a.b.rs` before `a.rs`), and `module_info.insert` for the `a`
fragment replaces the node created while processing `a.b`, dropping its
`submodules` set, so node `a` ends with no registered children. -/
theorem c5_parent_insert_drops_registered_child :
    buildModuleInfo false [("a.b.rs", "B"), ("a.rs", "A")] =
      some [("a", ⟨"a", "A", []⟩), ("a.b", ⟨"b", "B", []⟩)] ∧
    ((buildModuleInfo false [("a.b.rs", "B"), ("a.rs", "A")]).bind
        (fun mi => lookupM mi ("a"))).map Module.submodules = some [] := by
  decide

/-! ## Claim C8 -/

/-- Claim C8 states that a fragment with empty derived module name
contributes its content, unwrapped, to the output.  Counterexample: in
tonic mode the file `.tonic.rs` has stem `.tonic` and empty module name;
`generate_lib_rs` skips it entirely (`continue`), so the output is the bare
header and the content `CONTENT` appears nowhere in it. -/
theorem c8_cex_empty_module_name_content_dropped :
    generateLibRs [(".tonic.rs", "CONTENT")] true = some ("// @generated\n\n") ∧
    isSubstr ("CONTENT").data ("// @generated\n\n").data = false := by
  decide

/-- Claim C8 (amended): a fragment whose derived module name is empty is
skipped entirely by `generate_lib_rs` — it contributes neither content nor
a wrapping scope, and the output is identical to the output for the same
fragment set without it. -/
theorem c8_empty_module_name_fragment_skipped
    (isTonic : Bool) (l₁ l₂ : List (String × String)) (p c : String)
    (h : modNameOf isTonic p = some "") :
    generateLibRs (l₁ ++ (p, c) :: l₂) isTonic = generateLibRs (l₁ ++ l₂) isTonic := by
  have hstep : ∀ mi : ModuleInfo, processFile isTonic mi p c = some mi := by
    intro mi
    simp [processFile, h]
  simp [generateLibRs, buildModuleInfo, List.foldlM_append, List.foldlM_cons, hstep]

/-- Witness for `c8_empty_module_name_fragment_skipped` at a concrete
input. -/
theorem c8_empty_module_name_fragment_skipped_witness :
    modNameOf true (".tonic.rs") = some "" ∧
    generateLibRs [("a.tonic.rs", "A"), (".tonic.rs", "C")] true =
      generateLibRs [("a.tonic.rs", "A")] true :=
  ⟨by decide,
    c8_empty_module_name_fragment_skipped true [("a.tonic.rs", "A")] [] (".tonic.rs") ("C")
      (by decide)⟩

/-! ## Splitting / trimming lemmas -/

theorem string_mk_data (s : String) : (⟨s.data⟩ : String) = s := by cases s; rfl

theorem splitOnce_eq_none {c : Char} : ∀ {l : List Char}, splitOnce l c = none → c ∉ l
  | [], _ => by simp
  | a :: as, h => by
    by_cases hac : a = c
    · simp [splitOnce, hac] at h
    · simp only [splitOnce, if_neg hac] at h
      cases hrec : splitOnce as c with
      | none =>
        have := splitOnce_eq_none hrec
        simp [List.mem_cons, hac, this]
        intro hca
        exact hac hca.symm
      | some p => rw [hrec] at h; simp at h

theorem splitOnce_eq_some {c : Char} :
    ∀ {l x y : List Char}, splitOnce l c = some (x, y) → l = x ++ c :: y ∧ c ∉ x
  | [], _, _, h => by simp [splitOnce] at h
  | a :: as, x, y, h => by
    by_cases hac : a = c
    · simp only [splitOnce, if_pos hac] at h
      obtain ⟨hx, hy⟩ := by simpa using h
      subst hac; subst hx; subst hy; simp
    · simp only [splitOnce, if_neg hac] at h
      cases hrec : splitOnce as c with
      | none => rw [hrec] at h; simp at h
      | some p =>
        rw [hrec] at h
        obtain ⟨x', y'⟩ := p
        simp only [Option.some.injEq, Prod.mk.injEq] at h
        obtain ⟨hx, hy⟩ := h
        obtain ⟨has, hnx⟩ := splitOnce_eq_some hrec
        subst hy
        constructor
        · rw [← hx, has]; simp
        · rw [← hx]
          simp [List.mem_cons, hnx]
          intro hca
          exact hac hca.symm

theorem rsplitOnce_eq_none {c : Char} {l : List Char} (h : rsplitOnce l c = none) : c ∉ l := by
  unfold rsplitOnce at h
  cases hrec : splitOnce l.reverse c with
  | none =>
    have := splitOnce_eq_none hrec
    intro hc
    exact this (List.mem_reverse.mpr hc)
  | some p => rw [hrec] at h; simp at h

theorem rsplitOnce_eq_some {c : Char} {l p s : List Char} (h : rsplitOnce l c = some (p, s)) :
    l = p ++ c :: s ∧ c ∉ s := by
  unfold rsplitOnce at h
  cases hrec : splitOnce l.reverse c with
  | none => rw [hrec] at h; simp at h
  | some q =>
    rw [hrec] at h
    obtain ⟨x, y⟩ := q
    simp only [Option.some.injEq, Prod.mk.injEq] at h
    obtain ⟨hp, hs⟩ := h
    obtain ⟨hl, hnx⟩ := splitOnce_eq_some hrec
    constructor
    · have : l = (x ++ c :: y).reverse := by rw [← hl, List.reverse_reverse]
      rw [this, ← hp, ← hs]
      simp
    · rw [← hs]
      intro hc
      exact hnx (List.mem_reverse.mp hc)

theorem splitDots_ne_nil : ∀ l : List Char, splitDots l ≠ []
  | [] => by simp [splitDots]
  | c :: rest => by
    simp only [splitDots]
    cases h : splitDots rest with
    | nil => simp
    | cons h t => by_cases hc : c = '.' <;> simp [hc]

theorem splitDots_of_not_mem : ∀ {l : List Char}, '.' ∉ l → splitDots l = [l]
  | [], _ => rfl
  | c :: rest, h => by
    have hc : c ≠ '.' := by
      intro hc; exact h (by simp [hc])
    have hrest : '.' ∉ rest := by
      intro hr; exact h (by simp [hr])
    simp only [splitDots, splitDots_of_not_mem hrest]
    simp [hc]

theorem splitDots_append : ∀ {p s : List Char}, '.' ∉ s →
    splitDots (p ++ '.' :: s) = splitDots p ++ [s]
  | [], s, h => by simp [splitDots, splitDots_of_not_mem h]
  | c :: p', s, h => by
    have hrec := splitDots_append (p := p') h
    cases hp : splitDots p' with
    | nil => exact absurd hp (splitDots_ne_nil p')
    | cons h0 t0 =>
      have hrec2 : splitDots (p' ++ '.' :: s) = h0 :: (t0 ++ [s]) := by
        rw [hrec, hp]; simp
      show splitDots (c :: (p' ++ '.' :: s)) = splitDots (c :: p') ++ [s]
      simp only [splitDots, hrec2, hp]
      by_cases hc : c = '.' <;> simp [hc]

theorem splitDots_head_struct : ∀ {p : List Char} {h : List Char} {t : List (List Char)},
    splitDots p = h :: t → h ≠ [] → ∃ c cs h', p = c :: cs ∧ c ≠ '.' ∧ h = c :: h'
  | [], h, t, heq, hne => by
    simp only [splitDots, List.cons.injEq] at heq
    exact absurd heq.1.symm hne
  | c :: p', h, t, heq, hne => by
    cases hp : splitDots p' with
    | nil => exact absurd hp (splitDots_ne_nil p')
    | cons h0 t0 =>
      by_cases hc : c = '.'
      · have hh : h = [] := by
          simp only [splitDots, hp, if_pos hc, List.cons.injEq] at heq
          exact heq.1.symm
        exact absurd hh hne
      · have hh : h = c :: h0 := by
          simp only [splitDots, hp, if_neg hc, List.cons.injEq] at heq
          exact heq.1.symm
        exact ⟨c, p', h0, rfl, hc, hh⟩

theorem replDots_cons_ne {c : Char} (l : List Char) (h : c ≠ '.') :
    replDots (c :: l) = c :: replDots l := by
  simp [replDots, h]

theorem dropWhile_colon_not_mem : ∀ {l : List Char}, ':' ∉ l → l.dropWhile (· = ':') = l
  | [], _ => rfl
  | c :: rest, h => by
    have hc : ¬(c = ':') := by
      intro hc; exact h (by simp [hc])
    simp [List.dropWhile_cons, hc]

theorem trimColons_not_mem {l : List Char} (h : ':' ∉ l) : trimColons l = l := by
  unfold trimColons
  rw [dropWhile_colon_not_mem h,
    dropWhile_colon_not_mem (by intro hc; exact h (List.mem_reverse.mp hc)),
    List.reverse_reverse]

theorem trimColons_sep {s : List Char} (h : ':' ∉ s) :
    trimColons (':' :: ':' :: s) = s := by
  unfold trimColons
  have h1 : (':' :: ':' :: s).dropWhile (· = ':') = s := by
    simp [List.dropWhile_cons, dropWhile_colon_not_mem h]
  rw [h1, dropWhile_colon_not_mem (by intro hc; exact h (List.mem_reverse.mp hc)),
    List.reverse_reverse]

theorem trimColons_symbol {p s : List Char} {c : Char} {cs : List Char}
    (hp : p = c :: cs) (hc1 : c ≠ ':') (hc2 : c ≠ '.') (hs : s ≠ []) (hs2 : ':' ∉ s) :
    trimColons (replDots p ++ ':' :: ':' :: s) = replDots p ++ ':' :: ':' :: s := by
  subst hp
  rcases (List.eq_nil_or_concat s) with hnil | ⟨s', d, hsd⟩
  · exact absurd hnil hs
  · have hd : d ≠ ':' := by
      intro hd; subst hd; exact hs2 (by rw [hsd]; simp)
    rw [replDots_cons_ne cs hc2]
    unfold trimColons
    have h1 : (c :: (replDots cs ++ ':' :: ':' :: s)).dropWhile (· = ':') =
        c :: (replDots cs ++ ':' :: ':' :: s) := by
      simp [List.dropWhile_cons, hc1]
    rw [List.cons_append, h1]
    have h2 : (c :: (replDots cs ++ ':' :: ':' :: s)).reverse =
        d :: ((c :: (replDots cs ++ ':' :: ':' :: s')).reverse) := by
      rw [hsd]
      simp
    have h3 : (d :: ((c :: (replDots cs ++ ':' :: ':' :: s')).reverse)).dropWhile (· = ':') =
        d :: ((c :: (replDots cs ++ ':' :: ':' :: s')).reverse) := by
      simp [List.dropWhile_cons, hd]
    rw [h2, h3, ← h2, List.reverse_reverse]

/-! ## Claim C3 -/

/-- Decidable equality for `Except`, so concrete resolver runs can be
checked by `decide`. -/
instance exceptDecEq {ε α : Type} [DecidableEq ε] [DecidableEq α] :
    DecidableEq (Except ε α) := fun x y =>
  match x, y with
  | .ok a, .ok b =>
    if h : a = b then isTrue (by rw [h]) else isFalse (by intro hc; cases hc; exact h rfl)
  | .error a, .error b =>
    if h : a = b then isTrue (by rw [h]) else isFalse (by intro hc; cases hc; exact h rfl)
  | .ok _, .error _ => isFalse (by intro hc; cases hc)
  | .error _, .ok _ => isFalse (by intro hc; cases hc)

/-- Unfolding of `externOf` when the absolute name contains a dot. -/
theorem externOf_eq_some {crate absolute : String} {p s : List Char}
    (h : rsplitOnce absolute.data '.' = some (p, s)) :
    externOf crate absolute =
      ("." : String) ++ absolute ++ "=" ++ crate ++ "::" ++
        (⟨trimColons (replDots p ++ ':' :: ':' :: s)⟩ : String) := by
  unfold externOf
  rw [h]

/-- Unfolding of `externOf` when the absolute name contains no dot. -/
theorem externOf_eq_none {crate absolute : String}
    (h : rsplitOnce absolute.data '.' = none) :
    externOf crate absolute =
      ("." : String) ++ absolute ++ "=" ++ crate ++ "::" ++
        (⟨trimColons (':' :: ':' :: absolute.data)⟩ : String) := by
  unfold externOf
  rw [h]
  simp [replDots]

/-- Modelled from the spec (§3 SymbolEntry): the package is the absolute
name with its final segment removed (empty when there is no dot). -/
def packageOf (absolute : String) : List Char :=
  match rsplitOnce absolute.data '.' with
  | some (p, _) => p
  | none => []

/-- Modelled from the spec (§3 SymbolEntry): the local name is the absolute
name's final segment. -/
def localOf (absolute : String) : List Char :=
  match rsplitOnce absolute.data '.' with
  | some (_, s) => s
  | none => absolute.data

/-- Modelled from the spec (§3 ExternPathMapping): `target_path = crate_name
++ "::" ++ package.replace('.', "::") ++ "::" ++ local_name`, omitting the
`::` before the local name when the package is empty. -/
def specTargetPath (crateName absolute : String) : String :=
  if packageOf absolute = [] then crateName ++ "::" ++ (⟨localOf absolute⟩ : String)
  else
    crateName ++ "::" ++ (⟨replDots (packageOf absolute)⟩ : String) ++ "::" ++
      (⟨localOf absolute⟩ : String)

/-- Claim C3: for a well-formed absolute dotted name (non-empty segments
made of name characters, in particular no colons), the resolver produces
exactly the pair `source_key = "." ++ absolute_name` and `target_path` as
derived in the spec; and the spec's two concrete test vectors hold. -/
theorem c3_extern_path_mapping :
    (∀ crate absolute : String,
      (∀ seg ∈ splitDots absolute.data, seg ≠ [] ∧ ':' ∉ seg) →
      externOf crate absolute = ("." ++ absolute ++ "=") ++ specTargetPath crate absolute) ∧
    computeProtoPackageInfo [("google.protobuf.FileDescriptorProto free: 13-INF")]
        ("crate_name") =
      .ok [(".google.protobuf.FileDescriptorProto=crate_name::google::protobuf::FileDescriptorProto")] ∧
    computeProtoPackageInfo [("google.protobuf.DescriptorProto.ExtensionRange free: 4-INF")]
        ("crate_name") =
      .ok [(".google.protobuf.DescriptorProto.ExtensionRange=crate_name::google::protobuf::DescriptorProto::ExtensionRange")] := by
  refine ⟨?_, by decide, by decide⟩
  intro crate absolute hwf
  cases h : rsplitOnce absolute.data '.' with
  | none =>
    have hnd : '.' ∉ absolute.data := rsplitOnce_eq_none h
    have hseg := hwf absolute.data (by rw [splitDots_of_not_mem hnd]; simp)
    rw [externOf_eq_none h, trimColons_sep hseg.2]
    simp only [specTargetPath, packageOf, localOf, h, if_pos rfl]
    apply string_data_inj
    simp [String.data_append]
  | some q =>
    obtain ⟨p, s⟩ := q
    obtain ⟨habs, hns⟩ := rsplitOnce_eq_some h
    have hsplit : splitDots absolute.data = splitDots p ++ [s] := by
      rw [habs]; exact splitDots_append hns
    have hs_good : s ≠ [] ∧ ':' ∉ s := hwf s (by rw [hsplit]; simp)
    cases hp : splitDots p with
    | nil => exact absurd hp (splitDots_ne_nil p)
    | cons h0 t0 =>
      have h0_good : h0 ≠ [] ∧ ':' ∉ h0 := hwf h0 (by rw [hsplit, hp]; simp)
      obtain ⟨c, cs, h', hpc, hcd, hh0⟩ := splitDots_head_struct hp h0_good.1
      have hc1 : c ≠ ':' := by
        intro hc; subst hc; exact h0_good.2 (by rw [hh0]; simp)
      have hpne : p ≠ [] := by rw [hpc]; simp
      rw [externOf_eq_some h, trimColons_symbol hpc hc1 hcd hs_good.1 hs_good.2]
      simp only [specTargetPath, packageOf, localOf, h, if_neg hpne]
      apply string_data_inj
      simp [String.data_append]

/-- Witness for `c3_extern_path_mapping` at a concrete well-formed name. -/
theorem c3_extern_path_mapping_witness :
    (∀ seg ∈ splitDots ("google.protobuf.Empty").data, seg ≠ [] ∧ ':' ∉ seg) ∧
    externOf ("c") ("google.protobuf.Empty") =
      ("." ++ "google.protobuf.Empty" ++ "=") ++ specTargetPath ("c") ("google.protobuf.Empty") :=
  ⟨by decide, c3_extern_path_mapping.1 ("c") ("google.protobuf.Empty") (by decide)⟩

/-! ## Resolver fold structure -/

/-- All diagnostic lines of a run, in processing order. -/
def linesOfAll : List String → List String
  | [] => []
  | out :: rest => rustLines out ++ linesOfAll rest

/-- `compute_proto_package_info` is the fold of `procLine` over the
concatenated line lists. -/
theorem computeProtoPackageInfo_eq_lines (c : String) :
    ∀ (stdouts : List String) (acc : List String),
      stdouts.foldlM (fun a out => (rustLines out).foldlM (procLine c) a) acc =
        (linesOfAll stdouts).foldlM (procLine c) acc
  | [], _ => rfl
  | out :: rest, acc => by
    simp only [linesOfAll, List.foldlM_cons, List.foldlM_append]
    exact congrArg (_ >>= ·) (funext fun a => computeProtoPackageInfo_eq_lines c rest a)

theorem computeProtoPackageInfo_eq (stdouts : List String) (c : String) :
    computeProtoPackageInfo stdouts c = (linesOfAll stdouts).foldlM (procLine c) [] :=
  computeProtoPackageInfo_eq_lines c stdouts []

/-! ## Extern paths determine absolute names (counting `=` characters) -/

/-- The trailing (trimmed-symbol) part of an extern path. -/
def externTail (absolute : String) : List Char :=
  match rsplitOnce absolute.data '.' with
  | some (p, s) => trimColons (replDots p ++ ':' :: ':' :: s)
  | none => trimColons (':' :: ':' :: absolute.data)

theorem count_replDots (l : List Char) : (replDots l).count '=' = l.count '=' := by
  induction l with
  | nil => rfl
  | cons c rest ih =>
    by_cases hc : c = '.'
    · subst hc
      simp [replDots, List.count_append, List.count_cons, ih]
    · simp [replDots, List.count_append, List.count_cons, hc, ih]

theorem count_dropWhile_colon (l : List Char) :
    (l.dropWhile (· = ':')).count '=' = l.count '=' := by
  induction l with
  | nil => rfl
  | cons c rest ih =>
    by_cases hc : c = ':' <;> simp [List.dropWhile_cons, List.count_cons, hc, ih]

theorem count_trimColons (l : List Char) : (trimColons l).count '=' = l.count '=' := by
  unfold trimColons
  rw [List.count_reverse, count_dropWhile_colon, List.count_reverse, count_dropWhile_colon]

theorem externTail_count (a : String) : (externTail a).count '=' = a.data.count '=' := by
  unfold externTail
  cases h : rsplitOnce a.data '.' with
  | none =>
    rw [count_trimColons]
    simp [List.count_cons]
  | some q =>
    obtain ⟨p, s⟩ := q
    obtain ⟨habs, -⟩ := rsplitOnce_eq_some h
    rw [count_trimColons, habs]
    simp [List.count_append, List.count_cons, count_replDots]

theorem externOf_data (c a : String) :
    (externOf c a).data = '.' :: (a.data ++ '=' :: (c.data ++ ':' :: ':' :: externTail a)) := by
  have hdot : (("." : String)).data = ['.'] := rfl
  have heq : (("=" : String)).data = ['='] := rfl
  have hcc : (("::" : String)).data = [':', ':'] := rfl
  unfold externOf externTail
  cases h : rsplitOnce a.data '.' with
  | none =>
    simp [String.data_append, hdot, heq, hcc, replDots]
  | some q =>
    obtain ⟨p, s⟩ := q
    simp [String.data_append, hdot, heq, hcc]

/-- The extern path determines the absolute name: two distinct absolute
names never produce the same extern path (for one crate name).  The proof
counts `=` characters: a collision would force a nonempty overlap string
starting with `=` yet containing no `=` at all. -/
theorem externOf_inj {c a₁ a₂ : String} (h : externOf c a₁ = externOf c a₂) : a₁ = a₂ := by
  have hd : (externOf c a₁).data = (externOf c a₂).data := by rw [h]
  rw [externOf_data, externOf_data] at hd
  have hd2 : a₁.data ++ '=' :: (c.data ++ ':' :: ':' :: externTail a₁) =
      a₂.data ++ '=' :: (c.data ++ ':' :: ':' :: externTail a₂) := by
    exact (List.cons.inj hd).2
  have key : ∀ (x y : String) (e : List Char),
      y.data = x.data ++ e →
      '=' :: (c.data ++ ':' :: ':' :: externTail x) =
        e ++ '=' :: (c.data ++ ':' :: ':' :: externTail y) →
      e = [] := by
    intro x y e hy heq2
    have hcount : ('=' :: (c.data ++ ':' :: ':' :: externTail x)).count '=' =
        (e ++ '=' :: (c.data ++ ':' :: ':' :: externTail y)).count '=' := by rw [heq2]
    have hx : (externTail x).count '=' = x.data.count '=' := externTail_count x
    have hyc : (externTail y).count '=' = y.data.count '=' := externTail_count y
    have hycount : y.data.count '=' = x.data.count '=' + e.count '=' := by
      rw [hy, List.count_append]
    have hzero : e.count '=' = 0 := by
      simp only [List.count_cons, List.count_append] at hcount
      simp only [hx, hyc, hycount] at hcount
      omega
    cases he : e with
    | nil => rfl
    | cons d e' =>
      rw [he] at heq2
      have hd' : d = '=' := (List.cons.inj heq2).1.symm
      rw [he, hd'] at hzero
      simp [List.count_cons] at hzero
  rcases List.append_eq_append_iff.mp hd2 with ⟨e, he1, he2⟩ | ⟨e, he1, he2⟩
  · have : e = [] := key a₁ a₂ e he1 he2
    subst this
    exact string_data_inj (by simpa using he1.symm)
  · have : e = [] := key a₂ a₁ e he1 he2
    subst this
    exact string_data_inj (by simpa using he1)

/-! ## Sorted-set membership -/

theorem mem_insertStr_iff (x y : String) : ∀ l : List String,
    y ∈ insertStr x l ↔ y = x ∨ y ∈ l
  | [] => by simp [insertStr]
  | z :: t => by
    unfold insertStr
    by_cases h1 : ltS x z = true
    · rw [if_pos h1]
      simp [List.mem_cons]
    · rw [if_neg h1]
      by_cases h2 : x = z
      · rw [if_pos h2]
        subst h2
        simp [List.mem_cons]
      · rw [if_neg h2]
        simp only [List.mem_cons, mem_insertStr_iff x y t]
        tauto

theorem mem_insertStr_self (x : String) (l : List String) : x ∈ insertStr x l :=
  (mem_insertStr_iff x x l).mpr (Or.inl rfl)

theorem mem_insertStr_of_mem {y : String} (x : String) {l : List String} (h : y ∈ l) :
    y ∈ insertStr x l :=
  (mem_insertStr_iff x y l).mpr (Or.inr h)

/-! ## Except-monad fold helpers -/

theorem except_bind_ok {ε α β : Type} (a : α) (f : α → Except ε β) :
    (Except.ok a : Except ε α) >>= f = f a := rfl

theorem except_bind_error {ε α β : Type} (e : ε) (f : α → Except ε β) :
    (Except.error e : Except ε α) >>= f = .error e := rfl

theorem procLine_blank {c acc : String} {accl : List String} (h : trimS acc = "") :
    procLine c accl acc = .ok accl := by
  simp [procLine, h]

theorem procLine_split {c line a t : String} {acc : List String}
    (hnb : trimS line ≠ "") (hs : splitOnceS (trimS line) ' ' = some (a, t)) :
    procLine c acc line =
      if externOf c a ∈ acc then .error (("Duplicate extern: ") ++ externOf c a)
      else .ok (insertStr (externOf c a) acc) := by
  simp only [procLine, if_neg hnb, hs]

theorem procLine_mono {c line : String} {acc acc' : List String}
    (h : procLine c acc line = .ok acc') : ∀ y ∈ acc, y ∈ acc' := by
  by_cases hb : trimS line = ""
  · rw [procLine_blank hb] at h
    cases h
    exact fun y hy => hy
  · cases hs : splitOnceS (trimS line) ' ' with
    | none =>
      have herr : procLine c acc line = .error ("Failed to split free field number line") := by
        simp only [procLine, if_neg hb, hs]
      rw [herr] at h
      cases h
    | some q =>
      obtain ⟨a, t⟩ := q
      rw [procLine_split hb hs] at h
      by_cases hm : externOf c a ∈ acc
      · rw [if_pos hm] at h; cases h
      · rw [if_neg hm] at h
        cases h
        exact fun y hy => mem_insertStr_of_mem _ hy

theorem foldlM_procLine_mono {c : String} : ∀ {L : List String} {acc acc' : List String},
    L.foldlM (procLine c) acc = .ok acc' → ∀ y ∈ acc, y ∈ acc'
  | [], acc, acc', h => by
    cases h
    exact fun y hy => hy
  | l :: L, acc, acc', h => by
    rw [List.foldlM_cons] at h
    cases hstep : procLine c acc l with
    | error e => rw [hstep, except_bind_error] at h; cases h
    | ok a1 =>
      rw [hstep, except_bind_ok] at h
      exact fun y hy => foldlM_procLine_mono h y (procLine_mono hstep y hy)

/-! ## Claim C2 -/

/-- The absolute names of the non-blank lines, in processing order. -/
def absesOf (lines : List String) : List String :=
  lines.filterMap
    (fun l => if trimS l = "" then none else (splitOnceS (trimS l) ' ').map Prod.fst)

/-- Fold of `procLine` when every line is well formed, all absolute names
distinct and all their externs fresh: succeeds, and the result set is the
input set plus one extern per absolute name. -/
theorem c2_aux (c : String) : ∀ (lines : List String) (acc : List String),
    (∀ l ∈ lines, trimS l ≠ "" → (splitOnceS (trimS l) ' ').isSome) →
    (absesOf lines).Nodup →
    (∀ a ∈ absesOf lines, externOf c a ∉ acc) →
    ∃ acc', lines.foldlM (procLine c) acc = .ok acc' ∧
      ∀ e, e ∈ acc' ↔ e ∈ acc ∨ ∃ a ∈ absesOf lines, e = externOf c a
  | [], acc, _, _, _ => ⟨acc, rfl, by simp [absesOf]⟩
  | l :: rest, acc, hwf, hnd, hfresh => by
    by_cases hb : trimS l = ""
    · have habs : absesOf (l :: rest) = absesOf rest := by simp [absesOf, hb]
      rw [habs] at hnd hfresh
      obtain ⟨acc', h1, h2⟩ :=
        c2_aux c rest acc (fun l' hl' => hwf l' (by simp [hl'])) hnd hfresh
      refine ⟨acc', ?_, ?_⟩
      · rw [List.foldlM_cons, procLine_blank hb, except_bind_ok]
        exact h1
      · intro e
        rw [habs]
        exact h2 e
    · have hsome := hwf l (by simp) hb
      obtain ⟨q, hq⟩ := Option.isSome_iff_exists.mp hsome
      obtain ⟨a, t⟩ := q
      have habs : absesOf (l :: rest) = a :: absesOf rest := by simp [absesOf, hb, hq]
      rw [habs] at hnd hfresh
      have hnda : a ∉ absesOf rest := (List.nodup_cons.mp hnd).1
      have hndr := (List.nodup_cons.mp hnd).2
      have hna : externOf c a ∉ acc := hfresh a (by simp)
      have hstep : procLine c acc l = .ok (insertStr (externOf c a) acc) := by
        rw [procLine_split hb hq, if_neg hna]
      have hfresh' : ∀ a' ∈ absesOf rest, externOf c a' ∉ insertStr (externOf c a) acc := by
        intro a' ha' hmem
        rcases (mem_insertStr_iff _ _ _).mp hmem with heq | hmem2
        · exact hnda (externOf_inj heq ▸ ha')
        · exact hfresh a' (by simp [ha']) hmem2
      obtain ⟨acc', h1, h2⟩ :=
        c2_aux c rest (insertStr (externOf c a) acc)
          (fun l' hl' => hwf l' (by simp [hl'])) hndr hfresh'
      refine ⟨acc', ?_, ?_⟩
      · rw [List.foldlM_cons, hstep, except_bind_ok]
        exact h1
      · intro e
        rw [habs, h2 e, mem_insertStr_iff]
        simp only [List.mem_cons]
        constructor
        · rintro ((he | he) | ⟨a', ha', he⟩)
          · exact Or.inr ⟨a, Or.inl rfl, he⟩
          · exact Or.inl he
          · exact Or.inr ⟨a', Or.inr ha', he⟩
        · rintro (he | ⟨a', (ha' | ha'), he⟩)
          · exact Or.inl (Or.inr he)
          · exact Or.inl (Or.inl (ha' ▸ he))
          · exact Or.inr ⟨a', ha', he⟩

/-- Claim C2: (i) if one absolute name occurs on two non-blank lines (in
one listing or across listings), resolution fails with the duplicate error
whose message contains the conflicting source key; (ii) if every non-blank
line is splittable and all absolute names are distinct, it returns the full
mapping set without error. -/
theorem c2_duplicate_detection :
    (∀ (stdouts : List String) (c : String) (L₁ L₂ L₃ : List String)
      (l₁ l₂ a t₁ t₂ : String) (acc : List String),
      linesOfAll stdouts = L₁ ++ l₁ :: L₂ ++ l₂ :: L₃ →
      (L₁ ++ l₁ :: L₂).foldlM (procLine c) [] = .ok acc →
      trimS l₁ ≠ "" → splitOnceS (trimS l₁) ' ' = some (a, t₁) →
      trimS l₂ ≠ "" → splitOnceS (trimS l₂) ' ' = some (a, t₂) →
      computeProtoPackageInfo stdouts c = .error (("Duplicate extern: ") ++ externOf c a) ∧
      ∃ r, ("Duplicate extern: ") ++ externOf c a = ("Duplicate extern: .") ++ a ++ r) ∧
    (∀ (stdouts : List String) (c : String),
      (∀ l ∈ linesOfAll stdouts, trimS l ≠ "" → (splitOnceS (trimS l) ' ').isSome) →
      (absesOf (linesOfAll stdouts)).Nodup →
      ∃ acc, computeProtoPackageInfo stdouts c = .ok acc ∧
        ∀ e, e ∈ acc ↔ ∃ a ∈ absesOf (linesOfAll stdouts), e = externOf c a) := by
  constructor
  · intro stdouts c L₁ L₂ L₃ l₁ l₂ a t₁ t₂ acc hsplit hok hnb1 hsp1 hnb2 hsp2
    have hmem : externOf c a ∈ acc := by
      rw [List.foldlM_append] at hok
      simp only [List.foldlM_cons] at hok
      cases h1 : L₁.foldlM (procLine c) [] with
      | error e =>
        simp only [h1, except_bind_error] at hok
        exact Except.noConfusion hok
      | ok acc₀ =>
        simp only [h1, except_bind_ok] at hok
        cases h2 : procLine c acc₀ l₁ with
        | error e =>
          simp only [h2, except_bind_error] at hok
          exact Except.noConfusion hok
        | ok acc₁ =>
          simp only [h2, except_bind_ok] at hok
          have hgrow : acc₁ = insertStr (externOf c a) acc₀ := by
            rw [procLine_split hnb1 hsp1] at h2
            by_cases hm : externOf c a ∈ acc₀
            · rw [if_pos hm] at h2; cases h2
            · rw [if_neg hm] at h2; cases h2; rfl
          exact foldlM_procLine_mono hok (externOf c a)
            (hgrow ▸ mem_insertStr_self (externOf c a) acc₀)
    constructor
    · have hsplit' : linesOfAll stdouts = (L₁ ++ l₁ :: L₂) ++ l₂ :: L₃ := by
        rw [hsplit]
      rw [computeProtoPackageInfo_eq, hsplit', List.foldlM_append, hok]
      simp only [except_bind_ok, List.foldlM_cons, procLine_split hnb2 hsp2, if_pos hmem,
        except_bind_error]
    · refine ⟨("=" : String) ++ c ++ "::" ++ (⟨externTail a⟩ : String), ?_⟩
      have hlit : (("Duplicate extern: ." : String)).data =
          (("Duplicate extern: " : String)).data ++ ['.'] := rfl
      have heq : (("=" : String)).data = ['='] := rfl
      have hcc : (("::" : String)).data = [':', ':'] := rfl
      have hT : ((⟨externTail a⟩ : String)).data = externTail a := rfl
      apply string_data_inj
      simp [String.data_append, externOf_data, hlit, heq, hcc, hT]
  · intro stdouts c hwf hnd
    obtain ⟨acc, h1, h2⟩ := c2_aux c (linesOfAll stdouts) [] hwf hnd (by simp)
    refine ⟨acc, ?_, ?_⟩
    · rw [computeProtoPackageInfo_eq]
      exact h1
    · intro e
      have := h2 e
      simpa using this

/-- Witness for `c2_duplicate_detection`: a run that feeds the absolute
name `a` twice fails with the duplicate error, and a run with two distinct
names succeeds with both externs. -/
theorem c2_duplicate_detection_witness :
    (linesOfAll [("a x\na y")] = [] ++ ("a x") :: [] ++ ("a y") :: [] ∧
      (([] : List String) ++ ("a x") :: []).foldlM (procLine ("c")) [] = .ok [(".a=c::a")] ∧
      trimS ("a x") ≠ "" ∧ splitOnceS (trimS ("a x")) ' ' = some ("a", "x") ∧
      trimS ("a y") ≠ "" ∧ splitOnceS (trimS ("a y")) ' ' = some ("a", "y") ∧
      (computeProtoPackageInfo [("a x\na y")] ("c") =
          .error (("Duplicate extern: ") ++ externOf ("c") ("a")) ∧
        ∃ r, ("Duplicate extern: ") ++ externOf ("c") ("a") =
          ("Duplicate extern: .") ++ "a" ++ r)) ∧
    ((∀ l ∈ linesOfAll [("a x\nb y")], trimS l ≠ "" → (splitOnceS (trimS l) ' ').isSome) ∧
      (absesOf (linesOfAll [("a x\nb y")])).Nodup ∧
      ∃ acc, computeProtoPackageInfo [("a x\nb y")] ("c") = .ok acc ∧
        ∀ e, e ∈ acc ↔ ∃ a ∈ absesOf (linesOfAll [("a x\nb y")]), e = externOf ("c") a) :=
  ⟨⟨by decide, by decide, by decide, by decide, by decide, by decide,
      c2_duplicate_detection.1 [("a x\na y")] ("c") [] [] [] ("a x") ("a y") ("a") ("x") ("y")
        [(".a=c::a")] (by decide) (by decide) (by decide) (by decide) (by decide) (by decide)⟩,
    ⟨by decide, by decide,
      c2_duplicate_detection.2 [("a x\nb y")] ("c") (by decide) (by decide)⟩⟩

/-! ## String suffix lemmas for the rename/merge pass -/

theorem opt_bind_some {α β : Type} (a : α) (f : α → Option β) : (some a >>= f) = f a := rfl

theorem opt_bind_none {α β : Type} (f : α → Option β) : ((none : Option α) >>= f) = none := rfl

theorem strAppend_assoc (a b c : String) : (a ++ b) ++ c = a ++ (b ++ c) := by
  apply string_data_inj
  simp [String.data_append, List.append_assoc]

theorem strAppend_left_cancel {a b c : String} (h : a ++ b = a ++ c) : b = c := by
  apply string_data_inj
  have hd : a.data ++ b.data = a.data ++ c.data := by
    rw [← String.data_append, ← String.data_append, h]
  exact List.append_cancel_left hd

theorem strAppend_right_cancel {a b c : String} (h : a ++ c = b ++ c) : a = b := by
  apply string_data_inj
  have hd : a.data ++ c.data = b.data ++ c.data := by
    rw [← String.data_append, ← String.data_append, h]
  exact List.append_cancel_right hd

theorem endsWithS_append (x s : String) : endsWithS (x ++ s) s = true := by
  unfold endsWithS
  rw [String.data_append]
  exact List.isSuffixOf_iff_suffix.mpr (List.suffix_append x.data s.data)

theorem dropSuffix?_append (x s : String) : dropSuffix? (x ++ s) s = some x := by
  unfold dropSuffix?
  have hsuf : s.data.isSuffixOf (x ++ s).data := by
    rw [String.data_append]
    exact List.isSuffixOf_iff_suffix.mpr (List.suffix_append x.data s.data)
  rw [if_pos hsuf]
  congr 1
  apply string_data_inj
  show (x ++ s).data.take ((x ++ s).data.length - s.data.length) = x.data
  rw [String.data_append, List.length_append, Nat.add_sub_cancel, List.take_left]

theorem dropSuffix?_eq_some {n s x : String} (h : dropSuffix? n s = some x) : n = x ++ s := by
  unfold dropSuffix? at h
  by_cases hsuf : s.data.isSuffixOf n.data
  · rw [if_pos hsuf] at h
    obtain ⟨t, ht⟩ := List.isSuffixOf_iff_suffix.mp hsuf
    cases h
    apply string_data_inj
    rw [String.data_append]
    show n.data = (n.data.take (n.data.length - s.data.length)) ++ s.data
    rw [← ht]
    have hlen : (t ++ s.data).length - s.data.length = t.length := by
      rw [List.length_append]
      omega
    rw [hlen, List.take_left]
  · rw [if_neg hsuf] at h
    cases h

theorem p_rs_ne_p_tonic_rs (p : String) : p ++ ".rs" ≠ p ++ ".tonic.rs" := by
  intro h
  have := strAppend_left_cancel h
  exact absurd this (by decide)

/-! ## Claim C4: the tonic rename/merge pass -/

theorem tonicStep_rename {fs : String → Option String} {p cp : String}
    (hne : endsWithS (p ++ ".rs") (".tonic.rs") = false)
    (h1 : fs (p ++ ".tonic.rs") = none) (h2 : fs (p ++ ".rs") = some cp) :
    tonicStep fs (p ++ ".rs") =
      some (fun k => if k = p ++ ".tonic.rs" then some cp
        else if k = p ++ ".rs" then none else fs k) := by
  unfold tonicStep
  rw [if_pos hne]
  simp only [dropSuffix?_append, h1, h2, Option.isSome_none, Bool.false_eq_true, if_neg]
  simp

theorem tonicStep_continue {fs : String → Option String} {p x : String}
    (hne : endsWithS (p ++ ".rs") (".tonic.rs") = false)
    (h1 : fs (p ++ ".tonic.rs") = some x) :
    tonicStep fs (p ++ ".rs") = some fs := by
  unfold tonicStep
  rw [if_pos hne]
  simp only [dropSuffix?_append, h1]
  simp

theorem tonicStep_merge {fs : String → Option String} {p cp cs : String}
    (h1 : fs (p ++ ".rs") = some cp) (h2 : fs (p ++ ".tonic.rs") = some cs) :
    tonicStep fs (p ++ ".tonic.rs") =
      some (fun k => if k = p ++ ".tonic.rs" then some (cp ++ "\n" ++ cs)
        else if k = p ++ ".rs" then none else fs k) := by
  unfold tonicStep
  have ht : endsWithS (p ++ ".tonic.rs") (".tonic.rs") = true := endsWithS_append p (".tonic.rs")
  rw [if_neg (by rw [ht]; simp)]
  simp only [dropSuffix?_append, h1, h2]

/-- A step on a file other than `p.rs`, `p.tonic.rs`, `p.tonic.tonic.rs`
leaves package `p`'s two files untouched. -/
theorem tonicStep_untouched {fs fs' : String → Option String} {n p : String}
    (hstep : tonicStep fs n = some fs')
    (hne : endsWithS (p ++ ".rs") (".tonic.rs") = false)
    (h1 : n ≠ p ++ ".rs") (h2 : n ≠ p ++ ".tonic.rs") (h3 : n ≠ p ++ ".tonic.tonic.rs") :
    fs' (p ++ ".rs") = fs (p ++ ".rs") ∧ fs' (p ++ ".tonic.rs") = fs (p ++ ".tonic.rs") := by
  unfold tonicStep at hstep
  by_cases ht : endsWithS n (".tonic.rs") = false
  · rw [if_pos ht] at hstep
    cases hds : dropSuffix? n (".rs") with
    | none => rw [hds] at hstep; cases hstep
    | some stem =>
      simp only [hds] at hstep
      have hn : n = stem ++ ".rs" := dropSuffix?_eq_some hds
      by_cases hex : (fs (stem ++ ".tonic.rs")).isSome = true
      · rw [if_pos hex] at hstep
        cases hstep
        exact ⟨rfl, rfl⟩
      · rw [if_neg hex] at hstep
        cases hread : fs n with
        | none => simp only [hread] at hstep; cases hstep
        | some contents =>
          simp only [hread] at hstep
          cases hstep
          have neq1 : p ++ ".rs" ≠ stem ++ ".tonic.rs" := by
            intro he
            rw [he, endsWithS_append] at hne
            cases hne
          have neq2 : p ++ ".rs" ≠ n := fun he => h1 he.symm
          have neq3 : p ++ ".tonic.rs" ≠ stem ++ ".tonic.rs" := by
            intro he
            have := strAppend_right_cancel he
            exact h1 (by rw [hn, ← this])
          have neq4 : p ++ ".tonic.rs" ≠ n := fun he => h2 he.symm
          constructor
          · simp only [if_neg neq1, if_neg neq2]
          · simp only [if_neg neq3, if_neg neq4]
  · rw [if_neg ht] at hstep
    cases hds : dropSuffix? n (".tonic.rs") with
    | none => rw [hds] at hstep; cases hstep
    | some stem =>
      simp only [hds] at hstep
      have hn : n = stem ++ ".tonic.rs" := dropSuffix?_eq_some hds
      cases hrs : fs (stem ++ ".rs") with
      | none =>
        simp only [hrs] at hstep
        cases hstep
        exact ⟨rfl, rfl⟩
      | some rsContent =>
        simp only [hrs] at hstep
        cases hread : fs n with
        | none => simp only [hread] at hstep; cases hstep
        | some tonicContent =>
          simp only [hread] at hstep
          cases hstep
          have neq1 : p ++ ".rs" ≠ n := fun he => h1 he.symm
          have neq2 : p ++ ".rs" ≠ stem ++ ".rs" := by
            intro he
            have := strAppend_right_cancel he
            exact h2 (by rw [hn, ← this])
          have neq3 : p ++ ".tonic.rs" ≠ n := fun he => h2 he.symm
          have neq4 : p ++ ".tonic.rs" ≠ stem ++ ".rs" := by
            intro he
            have he2 : (p ++ ".tonic") ++ ".rs" = stem ++ ".rs" := by
              rw [strAppend_assoc]
              exact he
            have := strAppend_right_cancel he2
            apply h3
            rw [hn, ← this, strAppend_assoc]
            rfl
          constructor
          · simp only [if_neg neq1, if_neg neq2]
          · simp only [if_neg neq3, if_neg neq4]

/-- Folding the pass over files foreign to package `p` leaves `p`'s two
files untouched. -/
theorem tonicPass_untouched {p : String}
    (hne : endsWithS (p ++ ".rs") (".tonic.rs") = false) :
    ∀ {L : List String} {fs fs' : String → Option String},
      tonicPass fs L = some fs' →
      (∀ n ∈ L, n ≠ p ++ ".rs" ∧ n ≠ p ++ ".tonic.rs" ∧ n ≠ p ++ ".tonic.tonic.rs") →
      fs' (p ++ ".rs") = fs (p ++ ".rs") ∧ fs' (p ++ ".tonic.rs") = fs (p ++ ".tonic.rs")
  | [], fs, fs', h, _ => by
    cases h
    exact ⟨rfl, rfl⟩
  | n :: L, fs, fs', h, hfor => by
    rw [tonicPass, List.foldlM_cons] at h
    cases hstep : tonicStep fs n with
    | none => rw [hstep, opt_bind_none] at h; cases h
    | some fs₁ =>
      rw [hstep, opt_bind_some] at h
      obtain ⟨hu1, hu2⟩ := tonicStep_untouched hstep hne (hfor n (by simp)).1
        (hfor n (by simp)).2.1 (hfor n (by simp)).2.2
      obtain ⟨hv1, hv2⟩ :=
        tonicPass_untouched hne h (fun m hm => hfor m (by simp [hm]))
      exact ⟨hv1.trans hu1, hv2.trans hu2⟩

/-- Claim C4: with service generation enabled, a package with only a
Primary file survives as exactly the service-named file with unchanged
content, and a package with both files survives as the single merged file
`primary ++ "\n" ++ service` with the primary file removed — both under
the actual visiting order (primary before service, as the sorted set
iterates) and with the other visited files foreign to the package. -/
theorem c4_fragment_reconciliation :
    (∀ (p cp : String) (fs : String → Option String) (L₁ L₂ : List String)
      (fs' : String → Option String),
      endsWithS (p ++ ".rs") (".tonic.rs") = false →
      fs (p ++ ".rs") = some cp →
      fs (p ++ ".tonic.rs") = none →
      (∀ n ∈ L₁ ++ L₂, n ≠ p ++ ".rs" ∧ n ≠ p ++ ".tonic.rs" ∧ n ≠ p ++ ".tonic.tonic.rs") →
      tonicPass fs (L₁ ++ (p ++ ".rs") :: L₂) = some fs' →
      fs' (p ++ ".tonic.rs") = some cp ∧ fs' (p ++ ".rs") = none) ∧
    (∀ (p cp cs : String) (fs : String → Option String) (L₁ L₂ L₃ : List String)
      (fs' : String → Option String),
      endsWithS (p ++ ".rs") (".tonic.rs") = false →
      fs (p ++ ".rs") = some cp →
      fs (p ++ ".tonic.rs") = some cs →
      (∀ n ∈ L₁ ++ L₂ ++ L₃,
        n ≠ p ++ ".rs" ∧ n ≠ p ++ ".tonic.rs" ∧ n ≠ p ++ ".tonic.tonic.rs") →
      tonicPass fs (L₁ ++ (p ++ ".rs") :: L₂ ++ (p ++ ".tonic.rs") :: L₃) = some fs' →
      fs' (p ++ ".tonic.rs") = some (cp ++ "\n" ++ cs) ∧ fs' (p ++ ".rs") = none) := by
  constructor
  · intro p cp fs L₁ L₂ fs' hne hp ht hfor hpass
    rw [tonicPass, List.foldlM_append] at hpass
    simp only [List.foldlM_cons] at hpass
    cases h1 : L₁.foldlM tonicStep fs with
    | none => rw [h1, opt_bind_none] at hpass; cases hpass
    | some fs₁ =>
      rw [h1, opt_bind_some] at hpass
      obtain ⟨he1, he2⟩ := tonicPass_untouched hne h1
        (fun m hm => hfor m (by simp [hm]))
      rw [hp] at he1
      rw [ht] at he2
      rw [tonicStep_rename hne he2 he1, opt_bind_some] at hpass
      obtain ⟨hf1, hf2⟩ := tonicPass_untouched hne hpass
        (fun m hm => hfor m (by simp [hm]))
      refine ⟨?_, ?_⟩
      · rw [hf2]
        simp
      · rw [hf1]
        simp [p_rs_ne_p_tonic_rs p]
  · intro p cp cs fs L₁ L₂ L₃ fs' hne hp ht hfor hpass
    have hshape : L₁ ++ (p ++ ".rs") :: L₂ ++ (p ++ ".tonic.rs") :: L₃ =
        L₁ ++ (p ++ ".rs") :: (L₂ ++ (p ++ ".tonic.rs") :: L₃) := by simp
    rw [tonicPass, hshape, List.foldlM_append] at hpass
    simp only [List.foldlM_cons, List.foldlM_append] at hpass
    cases h1 : L₁.foldlM tonicStep fs with
    | none => rw [h1, opt_bind_none] at hpass; cases hpass
    | some fs₁ =>
      rw [h1, opt_bind_some] at hpass
      obtain ⟨he1, he2⟩ := tonicPass_untouched hne h1
        (fun m hm => hfor m (by simp [hm]))
      rw [hp] at he1
      rw [ht] at he2
      rw [tonicStep_continue hne he2, opt_bind_some] at hpass
      cases h2 : L₂.foldlM tonicStep fs₁ with
      | none => rw [h2, opt_bind_none] at hpass; cases hpass
      | some fs₂ =>
        rw [h2, opt_bind_some] at hpass
        obtain ⟨hg1, hg2⟩ := tonicPass_untouched hne h2
          (fun m hm => hfor m (by simp [hm]))
        rw [he1] at hg1
        rw [he2] at hg2
        rw [tonicStep_merge hg1 hg2, opt_bind_some] at hpass
        obtain ⟨hf1, hf2⟩ := tonicPass_untouched hne hpass
          (fun m hm => hfor m (by simp [hm]))
        refine ⟨?_, ?_⟩
        · rw [hf2]
          simp
        · rw [hf1]
          simp [p_rs_ne_p_tonic_rs p]

/-- Initial filesystem for the Primary-only witness scenario. -/
def c4fsA : String → Option String := fun k => if k = "p.rs" then some "P" else none

/-- Expected filesystem after the pass in the Primary-only scenario. -/
def c4fsA2 : String → Option String :=
  fun k => if k = "p" ++ ".tonic.rs" then some "P" else if k = "p" ++ ".rs" then none else c4fsA k

/-- Initial filesystem for the Primary-and-Service witness scenario. -/
def c4fsB : String → Option String :=
  fun k => if k = "p.rs" then some "P" else if k = "p.tonic.rs" then some "S" else none

/-- Expected filesystem after the pass in the Primary-and-Service scenario. -/
def c4fsB2 : String → Option String :=
  fun k =>
    if k = "p" ++ ".tonic.rs" then some ("P" ++ "\n" ++ "S")
    else if k = "p" ++ ".rs" then none else c4fsB k

/-- Witness for `c4_fragment_reconciliation` at concrete file sets. -/
theorem c4_fragment_reconciliation_witness :
    (tonicPass c4fsA (([] : List String) ++ ("p" ++ ".rs") :: []) = some c4fsA2 ∧
      c4fsA2 ("p" ++ ".tonic.rs") = some "P" ∧ c4fsA2 ("p" ++ ".rs") = none) ∧
    (tonicPass c4fsB
        (([] : List String) ++ ("p" ++ ".rs") :: [] ++ ("p" ++ ".tonic.rs") :: []) =
          some c4fsB2 ∧
      c4fsB2 ("p" ++ ".tonic.rs") = some ("P" ++ "\n" ++ "S") ∧
      c4fsB2 ("p" ++ ".rs") = none) := by
  have hA : tonicPass c4fsA (([] : List String) ++ ("p" ++ ".rs") :: []) = some c4fsA2 := rfl
  have hB : tonicPass c4fsB
      (([] : List String) ++ ("p" ++ ".rs") :: [] ++ ("p" ++ ".tonic.rs") :: []) =
        some c4fsB2 := rfl
  obtain ⟨a1, a2⟩ := c4_fragment_reconciliation.1 ("p") ("P") c4fsA [] [] c4fsA2
    (by decide) (by decide) (by decide) (fun n hn => absurd hn (by simp)) hA
  obtain ⟨b1, b2⟩ := c4_fragment_reconciliation.2 ("p") ("P") ("S") c4fsB [] [] [] c4fsB2
    (by decide) (by decide) (by decide) (fun n hn => absurd hn (by simp)) hB
  exact ⟨⟨hA, a1, a2⟩, ⟨hB, b1, b2⟩⟩

/-! ## Claim C9 -/

/-- Claim C9 states the failure message for an unsplittable line includes
the offending line.  Counterexample: on the single line `nospace` the run
fails with the fixed panic message `Failed to split free field number
line`, which does not contain `nospace`. -/
theorem c9_cex_malformed_line_message_fixed :
    computeProtoPackageInfo [("nospace")] ("c") =
      .error ("Failed to split free field number line") ∧
    isSubstr ("nospace").data ("Failed to split free field number line").data = false := by
  constructor
  · decide
  · decide

/-- Claim C9 (amended): a non-blank diagnostic line with no space makes
symbol-path resolution fail fatally, with the fixed message `Failed to
split free field number line` (which does not include the offending
line). -/
theorem c9_malformed_line_fatal (stdouts : List String) (c : String)
    (L₁ L₂ : List String) (line : String) (acc : List String)
    (hsplit : linesOfAll stdouts = L₁ ++ line :: L₂)
    (hok : L₁.foldlM (procLine c) [] = .ok acc)
    (hnb : trimS line ≠ "")
    (hns : splitOnceS (trimS line) ' ' = none) :
    computeProtoPackageInfo stdouts c = .error ("Failed to split free field number line") := by
  rw [computeProtoPackageInfo_eq, hsplit, List.foldlM_append, hok]
  show (line :: L₂).foldlM (procLine c) acc = _
  rw [List.foldlM_cons]
  have hline : procLine c acc line = .error ("Failed to split free field number line") := by
    simp only [procLine, if_neg hnb, hns]
  rw [hline]
  rfl

/-- Witness for `c9_malformed_line_fatal` at a concrete input. -/
theorem c9_malformed_line_fatal_witness :
    linesOfAll [("a x\nnospace")] = [("a x")] ++ ("nospace") :: [] ∧
    ([("a x")] : List String).foldlM (procLine ("c")) [] = .ok [(".a=c::a")] ∧
    trimS ("nospace") ≠ "" ∧
    splitOnceS (trimS ("nospace")) ' ' = none ∧
    computeProtoPackageInfo [("a x\nnospace")] ("c") =
      .error ("Failed to split free field number line") :=
  ⟨by decide, by decide, by decide, by decide,
    c9_malformed_line_fatal [("a x\nnospace")] ("c") [("a x")] [] ("nospace") [(".a=c::a")]
      (by decide) (by decide) (by decide) (by decide)⟩

/-! ## Claim C6: node paths of the built tree -/

/-- The node paths (keys) of a module map. -/
def keysOf (mi : ModuleInfo) : List String := mi.map Prod.fst

/-- The strict dotted prefixes of a module name, exactly as the prefix loop
of `generate_lib_rs` enumerates them. -/
def strictDotPrefixes (mn : String) : List String :=
  let parts := splitDots mn.data
  (List.range (parts.length - 1)).map (fun i => (⟨joinDots (parts.take (i + 1))⟩ : String))

/-- A node that is absent or has empty contents. -/
def emptyAt (mi : ModuleInfo) (P : String) : Prop :=
  lookupM mi P = none ∨ ∃ m, lookupM mi P = some m ∧ m.contents = ""

theorem mem_keys_insertSorted (x k : String) (v : Module) : ∀ mi : ModuleInfo,
    x ∈ keysOf (insertSorted k v mi) ↔ x = k ∨ x ∈ keysOf mi
  | [] => by simp [insertSorted, keysOf]
  | (k', m) :: rest => by
    unfold insertSorted
    by_cases h1 : ltS k k' = true
    · rw [if_pos h1]
      simp [keysOf, List.mem_cons]
    · rw [if_neg h1]
      by_cases h2 : k = k'
      · rw [if_pos h2]
        subst h2
        simp [keysOf, List.mem_cons]
      · rw [if_neg h2]
        have ih := mem_keys_insertSorted x k v rest
        simp only [keysOf, List.map_cons, List.mem_cons] at ih ⊢
        rw [ih]
        tauto

theorem mem_keys_entryAddChild (x k pn cn : String) : ∀ mi : ModuleInfo,
    x ∈ keysOf (entryAddChild mi k pn cn) ↔ x = k ∨ x ∈ keysOf mi
  | [] => by simp [entryAddChild, keysOf]
  | (k', m) :: rest => by
    unfold entryAddChild
    by_cases h1 : ltS k k' = true
    · rw [if_pos h1]
      simp [keysOf, List.mem_cons]
    · rw [if_neg h1]
      by_cases h2 : k = k'
      · rw [if_pos h2]
        subst h2
        simp [keysOf, List.mem_cons]
      · rw [if_neg h2]
        have ih := mem_keys_entryAddChild x k pn cn rest
        simp only [keysOf, List.map_cons, List.mem_cons] at ih ⊢
        rw [ih]
        tauto

theorem lookup_insertSorted (x k : String) (v : Module) : ∀ mi : ModuleInfo,
    lookupM (insertSorted k v mi) x = if x = k then some v else lookupM mi x
  | [] => by
    unfold insertSorted lookupM
    by_cases h : x = k <;> simp [h, lookupM]
  | (k', m) :: rest => by
    unfold insertSorted
    by_cases h1 : ltS k k' = true
    · rw [if_pos h1]
      by_cases h : x = k <;> simp [lookupM, h]
    · rw [if_neg h1]
      by_cases h2 : k = k'
      · rw [if_pos h2]
        subst h2
        by_cases h : x = k <;> simp [lookupM, h]
      · rw [if_neg h2]
        by_cases h : x = k'
        · subst h
          have hxk : ¬ x = k := fun he => h2 he.symm
          simp [lookupM, hxk]
        · simp only [lookupM, if_neg h]
          exact lookup_insertSorted x k v rest

theorem emptyAt_entryAddChild {P : String} (k pn cn : String) : ∀ {mi : ModuleInfo},
    emptyAt mi P → emptyAt (entryAddChild mi k pn cn) P
  | [], h => by
    unfold entryAddChild emptyAt
    by_cases hx : P = k
    · exact Or.inr ⟨⟨pn, "", [cn]⟩, by simp [lookupM, hx], rfl⟩
    · exact Or.inl (by simp [lookupM, hx])
  | (k', m) :: rest, h => by
    unfold entryAddChild
    by_cases h1 : ltS k k' = true
    · rw [if_pos h1]
      by_cases hx : P = k
      · exact Or.inr ⟨⟨pn, "", [cn]⟩, by simp [lookupM, hx], rfl⟩
      · unfold emptyAt at h ⊢
        simpa [lookupM, hx] using h
    · rw [if_neg h1]
      by_cases h2 : k = k'
      · rw [if_pos h2]
        subst h2
        by_cases hx : P = k
        · subst hx
          unfold emptyAt at h ⊢
          rcases h with hnone | ⟨m', hm', hc⟩
          · simp [lookupM] at hnone
          · have hlk : lookupM ((P, m) :: rest) P = some m := by simp [lookupM]
            rw [hlk] at hm'
            have hm : m' = m := (Option.some.inj hm').symm
            subst hm
            exact Or.inr ⟨{ m' with submodules := insertSub cn m'.submodules },
              by simp [lookupM], hc⟩
        · unfold emptyAt at h ⊢
          simpa [lookupM, hx] using h
      · rw [if_neg h2]
        by_cases hx : P = k'
        · subst hx
          unfold emptyAt at h ⊢
          simpa [lookupM] using h
        · have hrest : emptyAt rest P := by
            unfold emptyAt at h ⊢
            simpa [lookupM, hx] using h
          have ih := emptyAt_entryAddChild k pn cn hrest
          unfold emptyAt at ih ⊢
          simpa [lookupM, hx] using ih

theorem lookup_isSome_of_mem_keys {x : String} : ∀ {mi : ModuleInfo},
    x ∈ keysOf mi → ∃ m, lookupM mi x = some m
  | [], h => by simp [keysOf] at h
  | (k', m) :: rest, h => by
    by_cases hx : x = k'
    · exact ⟨m, by simp [lookupM, hx]⟩
    · have hmem : x ∈ keysOf rest := by
        simp only [keysOf, List.map_cons, List.mem_cons] at h ⊢
        rcases h with h | h
        · exact absurd h hx
        · exact h
      obtain ⟨m', hm'⟩ := lookup_isSome_of_mem_keys hmem
      exact ⟨m', by simp [lookupM, hx, hm']⟩

theorem keys_foldl_entry (x : String) (key pn cn : Nat → String) :
    ∀ (I : List Nat) (mi : ModuleInfo),
      x ∈ keysOf (I.foldl (fun mi i => entryAddChild mi (key i) (pn i) (cn i)) mi) ↔
        x ∈ keysOf mi ∨ ∃ i ∈ I, x = key i
  | [], mi => by simp
  | i :: I, mi => by
    simp only [List.foldl_cons]
    rw [keys_foldl_entry x key pn cn I, mem_keys_entryAddChild]
    simp only [List.mem_cons]
    constructor
    · rintro ((he | he) | ⟨j, hj, he⟩)
      · exact Or.inr ⟨i, Or.inl rfl, he⟩
      · exact Or.inl he
      · exact Or.inr ⟨j, Or.inr hj, he⟩
    · rintro (he | ⟨j, (hj | hj), he⟩)
      · exact Or.inl (Or.inr he)
      · exact Or.inl (Or.inl (hj ▸ he))
      · exact Or.inr ⟨j, hj, he⟩

theorem emptyAt_foldl_entry {P : String} (key pn cn : Nat → String) :
    ∀ (I : List Nat) {mi : ModuleInfo}, emptyAt mi P →
      emptyAt (I.foldl (fun mi i => entryAddChild mi (key i) (pn i) (cn i)) mi) P
  | [], _, h => h
  | i :: I, mi, h =>
    emptyAt_foldl_entry key pn cn I (emptyAt_entryAddChild (key i) (pn i) (cn i) h)

/-- The well-formedness data of one file: the dot segments of its derived
module name (none when the name cannot be derived). -/
def segsOf (isTonic : Bool) (path : String) : List (List Char) :=
  match modNameOf isTonic path with
  | some mn => splitDots mn.data
  | none => []

theorem processFile_some_keys {isTonic : Bool} {mi mi' : ModuleInfo} {p c : String}
    (h : processFile isTonic mi p c = some mi') (x : String) :
    x ∈ keysOf mi' ↔ x ∈ keysOf mi ∨
      ∃ mn, modNameOf isTonic p = some mn ∧ mn ≠ "" ∧
        (x = mn ∨ x ∈ strictDotPrefixes mn) := by
  unfold processFile at h
  cases hmn : modNameOf isTonic p with
  | none => rw [hmn] at h; cases h
  | some mn =>
    simp only [hmn] at h
    by_cases hemp : mn = ""
    · rw [if_pos hemp] at h
      cases h
      simp only [Option.some.injEq]
      constructor
      · exact fun hk => Or.inl hk
      · rintro (hk | ⟨mn', hmn', hne, _⟩)
        · exact hk
        · exact absurd (hmn'.symm ▸ hemp) hne
    · rw [if_neg hemp] at h
      cases h
      unfold addLinks
      rw [keys_foldl_entry x
        (fun i => (⟨joinDots ((splitDots mn.data).take (i + 1))⟩ : String))
        (fun i => (⟨(splitDots mn.data).getD i []⟩ : String))
        (fun i => (⟨(splitDots mn.data).getD (i + 1) []⟩ : String)),
        mem_keys_insertSorted]
      have hpre : (∃ i ∈ List.range ((splitDots mn.data).length - 1),
          x = (⟨joinDots ((splitDots mn.data).take (i + 1))⟩ : String)) ↔
          x ∈ strictDotPrefixes mn := by
        simp only [strictDotPrefixes, List.mem_map, List.mem_range]
        constructor
        · rintro ⟨i, hi, he⟩
          exact ⟨i, by simpa using hi, he.symm⟩
        · rintro ⟨i, hi, he⟩
          exact ⟨i, by simpa using hi, he.symm⟩
      constructor
      · rintro ((he | he) | he)
        · exact Or.inr ⟨mn, rfl, hemp, Or.inl he⟩
        · exact Or.inl he
        · exact Or.inr ⟨mn, rfl, hemp, Or.inr (hpre.mp he)⟩
      · rintro (he | ⟨mn', hmn', hne, (he | he)⟩)
        · exact Or.inl (Or.inr he)
        · cases hmn'
          exact Or.inl (Or.inl he)
        · cases hmn'
          exact Or.inr (hpre.mpr he)

theorem processFile_some_empty {isTonic : Bool} {mi mi' : ModuleInfo} {p c P : String}
    (h : processFile isTonic mi p c = some mi')
    (hP : modNameOf isTonic p ≠ some P)
    (hempty : emptyAt mi P) : emptyAt mi' P := by
  unfold processFile at h
  cases hmn : modNameOf isTonic p with
  | none => rw [hmn] at h; cases h
  | some mn =>
    simp only [hmn] at h
    by_cases hemp : mn = ""
    · rw [if_pos hemp] at h
      cases h
      exact hempty
    · rw [if_neg hemp] at h
      cases h
      have hne : P ≠ mn := fun he => hP (by rw [hmn, he])
      have h1 : emptyAt (insertSorted mn
          ⟨if mn.data.contains '.' then
              match rsplitOnce mn.data '.' with
              | some (_, y) => (⟨y⟩ : String)
              | none => mn
            else mn, c, []⟩ mi) P := by
        unfold emptyAt at hempty ⊢
        rw [lookup_insertSorted, if_neg hne]
        exact hempty
      unfold addLinks
      exact emptyAt_foldl_entry _ _ _ _ h1

/-- Fold invariant for `buildModuleInfo`: the key set grows by exactly the
module names and their strict dotted prefixes, and nodes at paths that are
no fragment's module name keep empty contents. -/
theorem c6_aux (isTonic : Bool) : ∀ (files : List (String × String)) (mi₀ mi : ModuleInfo),
    files.foldlM (fun mi pc => processFile isTonic mi pc.1 pc.2) mi₀ = some mi →
    (∀ x, x ∈ keysOf mi ↔ x ∈ keysOf mi₀ ∨
      ∃ f ∈ files, ∃ mn, modNameOf isTonic f.1 = some mn ∧ mn ≠ "" ∧
        (x = mn ∨ x ∈ strictDotPrefixes mn)) ∧
    (∀ P, (∀ f ∈ files, modNameOf isTonic f.1 ≠ some P) → emptyAt mi₀ P → emptyAt mi P)
  | [], mi₀, mi, h => by
    cases h
    exact ⟨fun x => by simp, fun P _ he => he⟩
  | f :: files, mi₀, mi, h => by
    rw [List.foldlM_cons] at h
    cases hstep : processFile isTonic mi₀ f.1 f.2 with
    | none => rw [hstep, opt_bind_none] at h; cases h
    | some mi₁ =>
      rw [hstep, opt_bind_some] at h
      obtain ⟨ih1, ih2⟩ := c6_aux isTonic files mi₁ mi h
      constructor
      · intro x
        rw [ih1 x, processFile_some_keys hstep x]
        simp only [List.mem_cons]
        constructor
        · rintro ((he | he) | ⟨g, hg, he⟩)
          · exact Or.inl he
          · exact Or.inr ⟨f, Or.inl rfl, he⟩
          · exact Or.inr ⟨g, Or.inr hg, he⟩
        · rintro (he | ⟨g, (hg | hg), he⟩)
          · exact Or.inl (Or.inl he)
          · exact Or.inl (Or.inr (hg ▸ he))
          · exact Or.inr ⟨g, hg, he⟩
      · intro P hP hemp
        exact ih2 P (fun g hg => hP g (by simp [hg]))
          (processFile_some_empty hstep (hP f (by simp)) hemp)

/-- Claim C6: for fragment sets whose derived module names have non-empty
dot segments, the node paths of the built tree are exactly the non-empty
module names and their strict dotted prefixes; every path is non-empty; and
a node whose path is no fragment's module name has empty contents. -/
theorem c6_node_paths (isTonic : Bool) (files : List (String × String)) (mi : ModuleInfo)
    (hbuild : buildModuleInfo isTonic files = some mi)
    (hwf : ∀ f ∈ files, ∀ seg ∈ segsOf isTonic f.1, seg ≠ []) :
    (∀ P, P ∈ keysOf mi ↔
      ∃ f ∈ files, ∃ mn, modNameOf isTonic f.1 = some mn ∧ mn ≠ "" ∧
        (P = mn ∨ P ∈ strictDotPrefixes mn)) ∧
    (∀ P ∈ keysOf mi, P ≠ "") ∧
    (∀ P ∈ keysOf mi, (∀ f ∈ files, modNameOf isTonic f.1 ≠ some P) →
      ∃ m, lookupM mi P = some m ∧ m.contents = "") := by
  obtain ⟨h1, h2⟩ := c6_aux isTonic files [] mi hbuild
  have hiff : ∀ P, P ∈ keysOf mi ↔
      ∃ f ∈ files, ∃ mn, modNameOf isTonic f.1 = some mn ∧ mn ≠ "" ∧
        (P = mn ∨ P ∈ strictDotPrefixes mn) := by
    intro P
    rw [h1 P]
    simp [keysOf]
  refine ⟨hiff, ?_, ?_⟩
  · intro P hPk
    obtain ⟨f, hf, mn, hmn, hne, hor⟩ := (hiff P).mp hPk
    rcases hor with he | he
    · exact he.symm ▸ hne
    · simp only [strictDotPrefixes, List.mem_map, List.mem_range] at he
      obtain ⟨i, hi, hPj⟩ := he
      have hparts : splitDots mn.data ≠ [] := splitDots_ne_nil mn.data
      cases hsp : splitDots mn.data with
      | nil => exact absurd hsp hparts
      | cons h0 t0 =>
        have h0ne : h0 ≠ [] := by
          have hsegs : segsOf isTonic f.1 = splitDots mn.data := by
            simp only [segsOf, hmn]
          exact hwf f hf h0 (by rw [hsegs, hsp]; simp)
        have htake : (splitDots mn.data).take (i + 1) = h0 :: t0.take i := by
          rw [hsp]
          rfl
        have hjoin : joinDots ((splitDots mn.data).take (i + 1)) ≠ [] := by
          rw [htake]
          cases t0.take i with
          | nil => exact h0ne
          | cons y ys =>
            intro hcon
            simp only [joinDots] at hcon
            rcases List.append_eq_nil.mp hcon with ⟨_, hcons⟩
            cases hcons
        intro hP0
        exact hjoin (congrArg String.data (hPj.trans hP0))
  · intro P hPk hPname
    have hempty := h2 P hPname (Or.inl rfl)
    obtain ⟨m, hm⟩ := lookup_isSome_of_mem_keys hPk
    rcases hempty with hnone | ⟨m', hm', hc⟩
    · rw [hm] at hnone
      cases hnone
    · rw [hm] at hm'
      exact ⟨m, hm, by rw [Option.some.inj hm']; exact hc⟩

/-! ## Claim C7: determinism -/

/-- Sortedness by the Rust string order. -/
def strSorted (l : List String) : Prop := List.Pairwise (fun a b => ltS a b = true) l

theorem ltS_flip {x y : String} (h1 : ltS x y = false) (h2 : x ≠ y) : ltS y x = true := by
  cases h3 : ltS y x with
  | true => rfl
  | false => exact absurd (ltS_total h1 h3) h2

theorem insertStr_sorted (x : String) : ∀ {l : List String},
    strSorted l → strSorted (insertStr x l)
  | [], _ => List.pairwise_singleton _ x
  | y :: t, h => by
    unfold insertStr
    obtain ⟨hy, ht⟩ := List.pairwise_cons.mp h
    by_cases h1 : ltS x y = true
    · rw [if_pos h1]
      refine List.pairwise_cons.mpr ⟨?_, h⟩
      intro z hz
      rcases List.mem_cons.mp hz with hz | hz
      · exact hz ▸ h1
      · exact ltS_trans h1 (hy z hz)
    · rw [if_neg h1]
      by_cases h2 : x = y
      · rw [if_pos h2]
        exact h
      · rw [if_neg h2]
        refine List.pairwise_cons.mpr ⟨?_, insertStr_sorted x ht⟩
        intro z hz
        rcases (mem_insertStr_iff x z t).mp hz with hz | hz
        · exact hz ▸ ltS_flip (by simpa using h1) h2
        · exact hy z hz

theorem strSorted_nodup : ∀ {l : List String}, strSorted l → l.Nodup := by
  intro l h
  refine h.imp ?_
  intro a b hab he
  rw [he, ltS_irrefl] at hab
  cases hab

theorem sorted_mem_unique : ∀ {l₁ l₂ : List String}, strSorted l₁ → strSorted l₂ →
    (∀ x, x ∈ l₁ ↔ x ∈ l₂) → l₁ = l₂
  | [], [], _, _, _ => rfl
  | [], b :: t₂, _, _, hm => by
    have := (hm b).mpr (by simp)
    simp at this
  | a :: t₁, [], _, _, hm => by
    have := (hm a).mp (by simp)
    simp at this
  | a :: t₁, b :: t₂, h₁, h₂, hm => by
    obtain ⟨ha, ht₁⟩ := List.pairwise_cons.mp h₁
    obtain ⟨hb, ht₂⟩ := List.pairwise_cons.mp h₂
    have hab : a = b := by
      by_contra hne
      have ha2 : a ∈ b :: t₂ := (hm a).mp (by simp)
      have hb1 : b ∈ a :: t₁ := (hm b).mpr (by simp)
      rcases List.mem_cons.mp ha2 with he | ha2
      · exact hne he
      · rcases List.mem_cons.mp hb1 with he | hb1
        · exact hne he.symm
        · have hba : ltS b a = true := hb a ha2
          have hab' : ltS a b = true := ha b hb1
          rw [ltS_asymm hab'] at hba
          cases hba
    subst hab
    have hm' : ∀ x, x ∈ t₁ ↔ x ∈ t₂ := by
      intro x
      constructor
      · intro hx
        rcases List.mem_cons.mp ((hm x).mp (by simp [hx])) with he | hx2
        · have hxx := ha x hx
          rw [he, ltS_irrefl] at hxx
          cases hxx
        · exact hx2
      · intro hx
        rcases List.mem_cons.mp ((hm x).mpr (by simp [hx])) with he | hx2
        · have hxx := hb x hx
          rw [he, ltS_irrefl] at hxx
          cases hxx
        · exact hx2
    rw [sorted_mem_unique ht₁ ht₂ hm']

theorem mem_foldl_insertStr (x : String) : ∀ (l : List String) (acc : List String),
    x ∈ l.foldl (fun acc y => insertStr y acc) acc ↔ x ∈ acc ∨ x ∈ l
  | [], acc => by simp
  | y :: t, acc => by
    simp only [List.foldl_cons]
    rw [mem_foldl_insertStr x t, mem_insertStr_iff]
    simp only [List.mem_cons]
    tauto

theorem foldl_insertStr_sorted : ∀ (l : List String) {acc : List String},
    strSorted acc → strSorted (l.foldl (fun acc y => insertStr y acc) acc)
  | [], _, h => h
  | y :: t, acc, h => foldl_insertStr_sorted t (insertStr_sorted y h)

theorem sortedDedup_eq_of_mem_iff {l₁ l₂ : List String}
    (h : ∀ x, x ∈ l₁ ↔ x ∈ l₂) : sortedDedup l₁ = sortedDedup l₂ := by
  apply sorted_mem_unique (foldl_insertStr_sorted l₁ List.Pairwise.nil)
    (foldl_insertStr_sorted l₂ List.Pairwise.nil)
  intro x
  rw [mem_foldl_insertStr, mem_foldl_insertStr]
  simp [h x]

/-- Claim C7: the build-and-serialize step is a deterministic function of
the discovered fragment set.  The `BTreeSet` of discovered paths is
canonical (`sortedDedup`), so two runs whose discovery lists contain the
same paths — in any order, with any duplication — produce byte-identical
output for the same file contents. -/
theorem c7_deterministic_output (isTonic : Bool) (read : String → String)
    (paths₁ paths₂ : List String) (h : ∀ x, x ∈ paths₁ ↔ x ∈ paths₂) :
    generateLibRs ((sortedDedup paths₁).map (fun p => (p, read p))) isTonic =
      generateLibRs ((sortedDedup paths₂).map (fun p => (p, read p))) isTonic := by
  rw [sortedDedup_eq_of_mem_iff h]

/-- The file contents for the determinism witness. -/
def c7read : String → String := fun p => if p = "a.rs" then "A" else "B"

/-- Witness for `c7_deterministic_output`: two discovery orders of the same
path set give identical output. -/
theorem c7_deterministic_output_witness :
    generateLibRs ((sortedDedup ["b.rs", "a.rs"]).map (fun p => (p, c7read p))) false =
      generateLibRs ((sortedDedup ["a.rs", "b.rs", "a.rs"]).map (fun p => (p, c7read p)))
        false :=
  c7_deterministic_output false c7read ["b.rs", "a.rs"] ["a.rs", "b.rs", "a.rs"]
    (by intro x; simp [List.mem_cons]; tauto)

/-! ## Claim C10: the `.tonic` stem requirement -/

theorem dropSuffix?_eq_none_iff {n s : String} :
    dropSuffix? n s = none ↔ endsWithS n s = false := by
  unfold dropSuffix? endsWithS
  by_cases h : s.data.isSuffixOf n.data
  · simp [h]
  · simp [h]

theorem processFile_tonic_isSome {mi : ModuleInfo} {p c : String} :
    (processFile true mi p c).isSome = true ↔ endsWithS (fileStem p) (".tonic") = true := by
  unfold processFile modNameOf
  simp only [if_pos rfl]
  cases hds : dropSuffix? (fileStem p) (".tonic") with
  | none =>
    have := dropSuffix?_eq_none_iff.mp hds
    simp [this]
  | some stem =>
    have : endsWithS (fileStem p) (".tonic") = true := by
      cases he : endsWithS (fileStem p) (".tonic") with
      | true => rfl
      | false => rw [dropSuffix?_eq_none_iff.mpr he] at hds; cases hds
    rw [this]
    simp only [Option.map_some]
    by_cases hemp : toLowerS stem = ""
    · simp [hemp]
    · simp [hemp]

theorem buildModuleInfo_tonic_aux : ∀ (files : List (String × String)) (mi₀ : ModuleInfo),
    ((files.foldlM (fun mi pc => processFile true mi pc.1 pc.2) mi₀).isSome = true ↔
      ∀ f ∈ files, endsWithS (fileStem f.1) (".tonic") = true)
  | [], mi₀ => by simp
  | f :: files, mi₀ => by
    rw [List.foldlM_cons]
    cases hstep : processFile true mi₀ f.1 f.2 with
    | none =>
      rw [opt_bind_none]
      have hne : endsWithS (fileStem f.1) (".tonic") = false := by
        cases he : endsWithS (fileStem f.1) (".tonic") with
        | false => rfl
        | true =>
          have := (@processFile_tonic_isSome mi₀ f.1 f.2).mpr he
          rw [hstep] at this
          cases this
      simp only [Option.isSome_none, Bool.false_eq_true, false_iff]
      intro hall
      rw [hall f (by simp)] at hne
      cases hne
    | some mi₁ =>
      rw [opt_bind_some]
      have hf : endsWithS (fileStem f.1) (".tonic") = true :=
        processFile_tonic_isSome.mp (by rw [hstep]; rfl)
      rw [buildModuleInfo_tonic_aux files mi₁]
      constructor
      · intro hall g hg
        rcases List.mem_cons.mp hg with he | hg
        · exact he ▸ hf
        · exact hall g hg
      · intro hall g hg
        exact hall g (by simp [hg])

theorem splitOnce_append {c : Char} : ∀ {x : List Char} (y : List Char), c ∉ x →
    splitOnce (x ++ c :: y) c = some (x, y)
  | [], y, _ => by simp [splitOnce]
  | a :: x, y, h => by
    have ha : a ≠ c := by
      intro he
      exact h (by simp [he])
    have hx : c ∉ x := fun hx => h (by simp [hx])
    simp only [List.cons_append, splitOnce, List.append_eq, if_neg ha, splitOnce_append y hx]

theorem rsplitOnce_append {c : Char} {x y : List Char} (h : c ∉ y) :
    rsplitOnce (x ++ c :: y) c = some (x, y) := by
  unfold rsplitOnce
  have hrev : (x ++ c :: y).reverse = y.reverse ++ c :: x.reverse := by
    simp
  rw [hrev, splitOnce_append x.reverse (fun hc => h (List.mem_reverse.mp hc))]
  simp

/-- The stem of a `*.tonic.rs` file name ends in `.tonic`. -/
theorem fileStem_tonic_rs {n : String} (h : endsWithS n (".tonic.rs") = true) :
    endsWithS (fileStem n) (".tonic") = true := by
  obtain ⟨t, ht⟩ := List.isSuffixOf_iff_suffix.mp h
  have hsplit : n.data = (t ++ (".tonic" : String).data) ++ '.' :: ("rs" : String).data := by
    rw [← ht]
    simp
  have hrs : rsplitOnce n.data '.' =
      some (t ++ (".tonic" : String).data, ("rs" : String).data) := by
    rw [hsplit]
    exact rsplitOnce_append (by decide)
  unfold fileStem
  simp only [hrs]
  have hne : ¬(t ++ (".tonic" : String).data = []) := by
    simp
  rw [if_neg hne]
  show (".tonic" : String).data.isSuffixOf (t ++ (".tonic" : String).data) = true
  exact List.isSuffixOf_iff_suffix.mpr (List.suffix_append t _)

theorem endsWithS_exists {n s : String} (h : endsWithS n s = true) : ∃ x, n = x ++ s := by
  obtain ⟨t, ht⟩ := List.isSuffixOf_iff_suffix.mp h
  refine ⟨(⟨t⟩ : String), ?_⟩
  apply string_data_inj
  rw [String.data_append, ← ht]

theorem tonic_rs_ne_rs (s : String) : endsWithS (s ++ ".tonic.rs") (".tonic.rs") = true :=
  endsWithS_append s (".tonic.rs")

/-- The four possible effects of one rename/merge step. -/
theorem tonicStep_shape {fs fs' : String → Option String} {m : String}
    (h : tonicStep fs m = some fs') :
    (∃ stem, m = stem ++ ".rs" ∧ endsWithS m (".tonic.rs") = false ∧
      (fs (stem ++ ".tonic.rs")).isSome = true ∧ fs' = fs) ∨
    (∃ stem contents, m = stem ++ ".rs" ∧ endsWithS m (".tonic.rs") = false ∧
      fs (stem ++ ".tonic.rs") = none ∧ fs m = some contents ∧
      fs' = fun k => if k = stem ++ ".tonic.rs" then some contents
        else if k = m then none else fs k) ∨
    (∃ stem, m = stem ++ ".tonic.rs" ∧ fs (stem ++ ".rs") = none ∧ fs' = fs) ∨
    (∃ stem rsC tC, m = stem ++ ".tonic.rs" ∧
      fs (stem ++ ".rs") = some rsC ∧ fs m = some tC ∧
      fs' = fun k => if k = m then some (rsC ++ "\n" ++ tC)
        else if k = stem ++ ".rs" then none else fs k) := by
  unfold tonicStep at h
  by_cases ht : endsWithS m (".tonic.rs") = false
  · rw [if_pos ht] at h
    cases hds : dropSuffix? m (".rs") with
    | none => rw [hds] at h; cases h
    | some stem =>
      simp only [hds] at h
      have hm : m = stem ++ ".rs" := dropSuffix?_eq_some hds
      by_cases hex : (fs (stem ++ ".tonic.rs")).isSome = true
      · rw [if_pos hex] at h
        cases h
        exact Or.inl ⟨stem, hm, ht, hex, rfl⟩
      · rw [if_neg hex] at h
        cases hread : fs m with
        | none => simp only [hread] at h; cases h
        | some contents =>
          simp only [hread] at h
          cases h
          refine Or.inr (Or.inl ⟨stem, contents, hm, ht, ?_, rfl, rfl⟩)
          cases hx : fs (stem ++ ".tonic.rs") with
          | none => rfl
          | some v => rw [hx] at hex; simp at hex
  · rw [if_neg ht] at h
    cases hds : dropSuffix? m (".tonic.rs") with
    | none => rw [hds] at h; cases h
    | some stem =>
      simp only [hds] at h
      have hm : m = stem ++ ".tonic.rs" := dropSuffix?_eq_some hds
      cases hrs : fs (stem ++ ".rs") with
      | none =>
        simp only [hrs] at h
        cases h
        exact Or.inr (Or.inr (Or.inl ⟨stem, hm, hrs, rfl⟩))
      | some rsC =>
        simp only [hrs] at h
        cases hread : fs m with
        | none => simp only [hread] at h; cases h
        | some tC =>
          simp only [hread] at h
          cases h
          exact Or.inr (Or.inr (Or.inr ⟨stem, rsC, tC, hm, hrs, rfl, rfl⟩))

/-- Loop invariant: every surviving file not named `*.tonic.rs` is named
`*.rs`, is still to be visited, and if its `.tonic.rs` twin exists, the
twin is still to be visited; or the file was already visited (the `continue`
branch) and its existing twin is still to be visited. -/
def tonicInv (fs : String → Option String) (rest : List String) : Prop :=
  ∀ n, (fs n).isSome = true → endsWithS n (".tonic.rs") = false →
    ∃ q, n = q ++ ".rs" ∧
      ((n ∈ rest ∧ ((fs (q ++ ".tonic.rs")).isSome = true → (q ++ ".tonic.rs") ∈ rest)) ∨
        ((fs (q ++ ".tonic.rs")).isSome = true ∧ (q ++ ".tonic.rs") ∈ rest))

theorem tonicInv_base {fs : String → Option String} {names : List String}
    (hdom : ∀ n, (fs n).isSome = true → n ∈ names ∧ endsWithS n (".rs") = true) :
    tonicInv fs names := by
  intro n hsome hnt
  obtain ⟨hmem, hrs⟩ := hdom n hsome
  obtain ⟨q, hq⟩ := endsWithS_exists hrs
  exact ⟨q, hq, Or.inl ⟨hmem, fun htwin => (hdom _ htwin).1⟩⟩

theorem ltCL_append_left : ∀ (p x y : List Char), ltCL (p ++ x) (p ++ y) = ltCL x y
  | [], _, _ => rfl
  | a :: p, x, y => by
    show ltCL (a :: (p ++ x)) (a :: (p ++ y)) = ltCL x y
    simp only [ltCL, if_neg (lt_irrefl a)]
    exact ltCL_append_left p x y

theorem ltS_append_left (p x y : String) : ltS (p ++ x) (p ++ y) = ltS x y := by
  unfold ltS
  rw [String.data_append, String.data_append]
  exact ltCL_append_left p.data x.data y.data

theorem tonicInv_step {fs fs' : String → Option String} {m : String} {rest : List String}
    (hstep : tonicStep fs m = some fs') (hsort : strSorted (m :: rest))
    (hinv : tonicInv fs (m :: rest)) :
    tonicInv fs' rest := by
  have hsort_head : ∀ z ∈ rest, ltS m z = true := (List.pairwise_cons.mp hsort).1
  intro n hsome hnt
  rcases tonicStep_shape hstep with
    ⟨sm, hm, hmt, hex, hfs⟩ | ⟨sm, contents, hm, hmt, hno, hread, hfs⟩ |
    ⟨sm, hm, hrs, hfs⟩ | ⟨sm, rsC, tC, hm, hrs, hread, hfs⟩
  · -- continue branch: the visited primary keeps both files
    subst hfs
    obtain ⟨q, hq, hdisj⟩ := hinv n hsome hnt
    refine ⟨q, hq, ?_⟩
    have htwin_ne_m : q ++ ".tonic.rs" ≠ m := by
      intro he
      rw [← he, tonic_rs_ne_rs] at hmt
      cases hmt
    rcases hdisj with ⟨hmem, hinner⟩ | ⟨htw, htwmem⟩
    · rcases List.mem_cons.mp hmem with he | hmem2
      · have hq_sm : q = sm := strAppend_right_cancel ((hq.symm.trans he).trans hm)
        refine Or.inr ⟨by rw [hq_sm]; exact hex, ?_⟩
        have hmem3 := hinner (by rw [hq_sm]; exact hex)
        rcases List.mem_cons.mp hmem3 with he2 | h2
        · exact absurd he2 htwin_ne_m
        · exact h2
      · refine Or.inl ⟨hmem2, fun htw => ?_⟩
        rcases List.mem_cons.mp (hinner htw) with he2 | h2
        · exact absurd he2 htwin_ne_m
        · exact h2
    · refine Or.inr ⟨htw, ?_⟩
      rcases List.mem_cons.mp htwmem with he2 | h2
      · exact absurd he2 htwin_ne_m
      · exact h2
  · -- rename branch: the visited primary becomes its own twin
    have hreal_t : endsWithS (sm ++ ".tonic.rs") (".tonic.rs") = true := tonic_rs_ne_rs sm
    have hm_ne_real : m ≠ sm ++ ".tonic.rs" := by
      intro he2
      rw [he2, hreal_t] at hmt
      cases hmt
    have hn_ne_real : n ≠ sm ++ ".tonic.rs" := by
      intro he
      rw [he, hreal_t] at hnt
      cases hnt
    have hn_ne_m : n ≠ m := by
      intro he
      subst he
      rw [hfs] at hsome
      simp only [if_neg hn_ne_real, if_pos rfl] at hsome
      cases hsome
    have hfsn : fs n = fs' n := by
      rw [hfs]
      simp only [if_neg hn_ne_real, if_neg hn_ne_m]
    obtain ⟨q, hq, hdisj⟩ := hinv n (by rw [hfsn]; exact hsome) hnt
    have htwin_ne_m : q ++ ".tonic.rs" ≠ m := by
      intro he
      rw [← he, tonic_rs_ne_rs] at hmt
      cases hmt
    have htwin_ne_real : q ++ ".tonic.rs" ≠ sm ++ ".tonic.rs" := by
      intro he
      have hq_sm : q = sm := strAppend_right_cancel he
      exact hn_ne_m (by rw [hq, hq_sm, ← hm])
    have hfstw : fs' (q ++ ".tonic.rs") = fs (q ++ ".tonic.rs") := by
      rw [hfs]
      simp only [if_neg htwin_ne_real, if_neg htwin_ne_m]
    refine ⟨q, hq, ?_⟩
    rcases hdisj with ⟨hmem, hinner⟩ | ⟨htw, htwmem⟩
    · rcases List.mem_cons.mp hmem with he | hmem2
      · exact absurd he hn_ne_m
      · refine Or.inl ⟨hmem2, fun htw => ?_⟩
        rcases List.mem_cons.mp (hinner (by rw [← hfstw]; exact htw)) with he2 | h2
        · exact absurd he2 htwin_ne_m
        · exact h2
    · refine Or.inr ⟨by rw [hfstw]; exact htw, ?_⟩
      rcases List.mem_cons.mp htwmem with he2 | h2
      · exact absurd he2 htwin_ne_m
      · exact h2
  · -- skipped merge: the visited service file has no primary sibling
    subst hfs
    obtain ⟨q, hq, hdisj⟩ := hinv n hsome hnt
    have htwin_ne_m : q ++ ".tonic.rs" ≠ m := by
      intro he
      have hq_sm : q = sm := strAppend_right_cancel (he.trans hm)
      rw [hq, hq_sm, hrs] at hsome
      cases hsome
    refine ⟨q, hq, ?_⟩
    rcases hdisj with ⟨hmem, hinner⟩ | ⟨htw, htwmem⟩
    · rcases List.mem_cons.mp hmem with he | hmem2
      · have hcon : endsWithS n (".tonic.rs") = true := by
          rw [he, hm]
          exact tonic_rs_ne_rs sm
        rw [hcon] at hnt
        cases hnt
      · refine Or.inl ⟨hmem2, fun htw => ?_⟩
        rcases List.mem_cons.mp (hinner htw) with he2 | h2
        · exact absurd he2 htwin_ne_m
        · exact h2
    · refine Or.inr ⟨htw, ?_⟩
      rcases List.mem_cons.mp htwmem with he2 | h2
      · exact absurd he2 htwin_ne_m
      · exact h2
  · -- merge branch: the primary sibling is folded into the service file
    have hm_tonic : endsWithS m (".tonic.rs") = true := by
      rw [hm]
      exact tonic_rs_ne_rs sm
    have hn_ne_m : n ≠ m := by
      intro he
      rw [he, hm_tonic] at hnt
      cases hnt
    have hrs_ne_m : sm ++ ".rs" ≠ m := by
      intro he
      have hq_sm : sm = sm ++ ".tonic" := by
        have h2 : sm ++ ".rs" = (sm ++ ".tonic") ++ ".rs" := by
          rw [strAppend_assoc]
          exact he.trans hm
        exact strAppend_right_cancel h2
      have hlen := congrArg (fun t => t.data.length) hq_sm
      simp only [String.data_append, List.length_append] at hlen
      have h6 : (".tonic" : String).data.length = 6 := rfl
      rw [h6] at hlen
      omega
    have hn_ne_rs : n ≠ sm ++ ".rs" := by
      intro he
      subst he
      rw [hfs] at hsome
      simp only [if_neg hrs_ne_m, if_pos rfl] at hsome
      cases hsome
    have hfsn : fs n = fs' n := by
      rw [hfs]
      simp only [if_neg hn_ne_m, if_neg hn_ne_rs]
    obtain ⟨q, hq, hdisj⟩ := hinv n (by rw [hfsn]; exact hsome) hnt
    have htwin_ne_m : q ++ ".tonic.rs" ≠ m := by
      intro he
      have hq_sm : q = sm := strAppend_right_cancel (he.trans hm)
      exact hn_ne_rs (by rw [hq, hq_sm])
    -- if the twin were the removed primary sibling, the sorted visiting
    -- order is violated: q.tonic.tonic.rs is visited after q.tonic.rs
    have htwin_rs_sorted : q ++ ".tonic.rs" ∈ rest → q ++ ".tonic.rs" ≠ sm ++ ".rs" := by
      intro hmem he
      have hq_sm : (q ++ ".tonic") ++ ".rs" = sm ++ ".rs" := by
        rw [strAppend_assoc]
        exact he
      have hq_sm2 : sm = q ++ ".tonic" := (strAppend_right_cancel hq_sm).symm
      have hlt := hsort_head (q ++ ".tonic.rs") hmem
      rw [hm, hq_sm2, strAppend_assoc] at hlt
      rw [show ((".tonic" : String) ++ ".tonic.rs") = (".tonic.tonic.rs" : String) from rfl] at hlt
      rw [ltS_append_left] at hlt
      have : ltS (".tonic.tonic.rs") (".tonic.rs") = false := by decide
      rw [this] at hlt
      cases hlt
    refine ⟨q, hq, ?_⟩
    rcases hdisj with ⟨hmem, hinner⟩ | ⟨htw, htwmem⟩
    · rcases List.mem_cons.mp hmem with he | hmem2
      · exact absurd he hn_ne_m
      · refine Or.inl ⟨hmem2, fun htw => ?_⟩
        have htwmem2 : q ++ ".tonic.rs" ∈ m :: rest := by
          apply hinner
          by_cases hrs_eq : q ++ ".tonic.rs" = sm ++ ".rs"
          · rw [hfs] at htw
            simp only [if_neg htwin_ne_m, if_pos hrs_eq] at htw
            cases htw
          · rw [hfs] at htw
            simp only [if_neg htwin_ne_m, if_neg hrs_eq] at htw
            exact htw
        rcases List.mem_cons.mp htwmem2 with he2 | h2
        · exact absurd he2 htwin_ne_m
        · exact h2
    · have htwmem2 : q ++ ".tonic.rs" ∈ rest := by
        rcases List.mem_cons.mp htwmem with he2 | h2
        · exact absurd he2 htwin_ne_m
        · exact h2
      have hne_rs := htwin_rs_sorted htwmem2
      refine Or.inr ⟨?_, htwmem2⟩
      rw [hfs]
      simp only [if_neg htwin_ne_m, if_neg hne_rs]
      exact htw

/-- After the rename/merge pass every surviving file is named
`*.tonic.rs`. -/
theorem tonicPass_survivors : ∀ (names : List String) (fs fs' : String → Option String),
    tonicPass fs names = some fs' → strSorted names → tonicInv fs names →
    ∀ n, (fs' n).isSome = true → endsWithS n (".tonic.rs") = true
  | [], fs, fs', hpass, _, hinv, n => by
    cases hpass
    intro hsome
    cases he : endsWithS n (".tonic.rs") with
    | true => rfl
    | false =>
      obtain ⟨q, _, hdisj⟩ := hinv n hsome he
      rcases hdisj with ⟨hmem, _⟩ | ⟨_, hmem⟩ <;> cases hmem
  | m :: rest, fs, fs', hpass, hsort, hinv, n => by
    rw [tonicPass, List.foldlM_cons] at hpass
    cases hstep : tonicStep fs m with
    | none => rw [hstep, opt_bind_none] at hpass; cases hpass
    | some fs₁ =>
      rw [hstep, opt_bind_some] at hpass
      exact tonicPass_survivors rest fs₁ fs' hpass (List.pairwise_cons.mp hsort).2
        (tonicInv_step hstep hsort hinv) n

/-- Initial filesystem for the survivors witness scenario. -/
def c10fs : String → Option String := fun k => if k = "a.rs" then some "A" else none

/-- Expected filesystem after the rename/merge pass in the survivors
witness scenario. -/
def c10fs2 : String → Option String :=
  fun k => if k = "a" ++ ".tonic.rs" then some "A" else if k = "a.rs" then none else c10fs k

/-- Claim C10: in tonic mode, the module-map build of `generate_lib_rs` is
defined exactly for file sets in which every file stem ends in `.tonic`
(the `strip_suffix(".tonic").expect(...)` panic fires otherwise); the
rename/merge pass establishes the precondition that every surviving file is
named `*.tonic.rs`; under that precondition the build always succeeds, so
the panic is unreachable; and a build failure makes the whole assembly
fail. -/
theorem c10_tonic_stem_requirement :
    (∀ files : List (String × String),
      (buildModuleInfo true files).isSome = true ↔
        ∀ f ∈ files, endsWithS (fileStem f.1) (".tonic") = true) ∧
    (∀ files : List (String × String),
      (∀ f ∈ files, endsWithS f.1 (".tonic.rs") = true) →
      (buildModuleInfo true files).isSome = true) ∧
    (∀ files : List (String × String),
      buildModuleInfo true files = none → generateLibRs files true = none) ∧
    (∀ (names : List String) (fs fs' : String → Option String),
      strSorted names →
      (∀ n, (fs n).isSome = true → n ∈ names ∧ endsWithS n (".rs") = true) →
      tonicPass fs names = some fs' →
      ∀ n, (fs' n).isSome = true → endsWithS n (".tonic.rs") = true) := by
  refine ⟨?_, ?_, ?_, ?_⟩
  · intro files
    exact buildModuleInfo_tonic_aux files []
  · intro files hall
    exact (buildModuleInfo_tonic_aux files []).mpr
      (fun f hf => fileStem_tonic_rs (hall f hf))
  · intro files hnone
    unfold generateLibRs
    rw [hnone]
  · intro names fs fs' hsort hdom hpass n hs
    exact tonicPass_survivors names fs fs' hpass hsort (tonicInv_base hdom) n hs

/-- Witness for `c10_tonic_stem_requirement` at concrete file sets: a
`*.tonic.rs` set builds, a bare `.rs` set panics. -/
theorem c10_tonic_stem_requirement_witness :
    ((buildModuleInfo true [("a.tonic.rs", "A")]).isSome = true ↔
      ∀ f ∈ [("a.tonic.rs", "A")], endsWithS (fileStem f.1) (".tonic") = true) ∧
    (buildModuleInfo true [("a.tonic.rs", "A")]).isSome = true ∧
    buildModuleInfo true [("a.rs", "A")] = none ∧
    generateLibRs [("a.rs", "A")] true = none ∧
    tonicPass c10fs ["a.rs"] = some c10fs2 ∧
    endsWithS ("a.tonic.rs") (".tonic.rs") = true := by
  have hdom : ∀ n, (c10fs n).isSome = true →
      n ∈ (["a.rs"] : List String) ∧ endsWithS n (".rs") = true := by
    intro n hn
    by_cases h : n = "a.rs"
    · subst h
      exact ⟨by decide, by decide⟩
    · unfold c10fs at hn
      simp only [if_neg h] at hn
      cases hn
  refine ⟨c10_tonic_stem_requirement.1 [("a.tonic.rs", "A")],
    c10_tonic_stem_requirement.2.1 [("a.tonic.rs", "A")] (by decide),
    by decide,
    c10_tonic_stem_requirement.2.2.1 [("a.rs", "A")] (by decide),
    rfl,
    c10_tonic_stem_requirement.2.2.2 ["a.rs"] c10fs c10fs2
      (List.pairwise_singleton _ ("a.rs")) hdom rfl
      ("a.tonic.rs") (by decide)⟩

/-- The module map built for the witness fragment set. -/
def c6MI : ModuleInfo :=
  [("a", ⟨"a", "", ["b"]⟩), ("a.b", ⟨"b", "X", ["c"]⟩), ("a.b.c", ⟨"c", "Y", []⟩)]

/-- Witness for `c6_node_paths` at a concrete fragment set: packages `a.b`
and `a.b.c` have fragments, and the pure grouping ancestor `a` exists with
empty contents. -/
theorem c6_node_paths_witness :
    buildModuleInfo false [("a.b.rs", "X"), ("a.b.c.rs", "Y")] = some c6MI ∧
    (("a") ∈ keysOf c6MI ↔
      ∃ f ∈ [("a.b.rs", "X"), ("a.b.c.rs", "Y")], ∃ mn,
        modNameOf false f.1 = some mn ∧ mn ≠ "" ∧
          (("a") = mn ∨ ("a") ∈ strictDotPrefixes mn)) ∧
    (∃ m, lookupM c6MI ("a") = some m ∧ m.contents = "") := by
  have hb : buildModuleInfo false [("a.b.rs", "X"), ("a.b.c.rs", "Y")] = some c6MI := by
    decide
  have hwf : ∀ f ∈ [("a.b.rs", "X"), ("a.b.c.rs", "Y")],
      ∀ seg ∈ segsOf false f.1, seg ≠ [] := by decide
  have hall := c6_node_paths false [("a.b.rs", "X"), ("a.b.c.rs", "Y")] c6MI hb hwf
  exact ⟨hb, hall.1 ("a"),
    hall.2.2 ("a") (by decide) (by decide)⟩

end PW
